import Mathlib

/-!
# Verification of the byteweave header amalgamator

Shallow embedding of `tools/amalgamate.py`: the directive parser,
local path resolver, recursive inliner, version synthesizer, preamble
builder and orchestrator, together with proofs about them.

Modelling conventions:
* Paths are plain strings; `Path.__truediv__` / `resolve()` is string
  joining with `"/"` (paths are taken as already canonical: no
  symlinks or `..` segments).
* The filesystem is an explicit association list from path to file
  content, plus a list of existing directories.
* Python's mutable `seen : set[Path]` is threaded through return
  values as a list (elements are only ever inserted when absent, so
  it stays duplicate-free).  Each call additionally returns the list
  of files it read, in first-visit order; this is ghost
  instrumentation that does not influence the produced text.
* Python's unbounded recursion is embedded with explicit fuel;
  `inline_file` runs with fuel `|files| + 1`, and the termination
  claim is settled by a fuel-stabilization theorem.
* Character classes `\s` and `\d` of the embedded regular expressions
  are modelled at ASCII fidelity.
-/

namespace Amalgamate

/-- ASCII whitespace, the characters matched by the regex class used in
`amalgamate.py` and by `str.strip` (space, tab, newline, carriage
return, vertical tab, form feed). -/
def isPySpace (c : Char) : Bool :=
  c == ' ' || c == '\t' || c == '\n' || c == '\r' ||
    c == Char.ofNat 11 || c == Char.ofNat 12

/-- Leading-whitespace removal, the left half of Python `str.strip`. -/
def pyLtrim (l : List Char) : List Char := l.dropWhile isPySpace

/-- Trailing-whitespace removal, Python `str.rstrip`. -/
def pyRtrim (l : List Char) : List Char := (l.reverse.dropWhile isPySpace).reverse

/-- Python `str.strip` on character lists. -/
def pyStripL (l : List Char) : List Char := pyRtrim (pyLtrim l)

/-- Python `str.rstrip` on strings. -/
def pyRstripS (s : String) : String := String.mk (pyRtrim s.data)

/-- Boolean "the first list is a leading segment of the second",
Python `str.startswith`. -/
def leadsWith : List Char → List Char → Bool
  | [], _ => true
  | _ :: _, [] => false
  | p :: ps, c :: cs => p == c && leadsWith ps cs

/-- Boolean substring containment, Python's `needle in haystack`. -/
def hasSubstr (needle : List Char) : List Char → Bool
  | [] => leadsWith needle []
  | c :: cs => leadsWith needle (c :: cs) || hasSubstr needle cs

/-- Helper for `pySplitlines`: accumulate the current line (reversed)
while scanning for newline characters. -/
def splitNlGo (acc : List Char) : List Char → List String
  | [] => if acc.isEmpty then [] else [String.mk acc.reverse]
  | c :: cs =>
    if c == '\n' then String.mk acc.reverse :: splitNlGo [] cs
    else splitNlGo (c :: acc) cs

/-- Python `str.splitlines` for strings whose only line terminator is
`\n` (which is all that remains after `normalize_newlines`): a final
newline does not open an extra empty line. -/
def pySplitlines (s : String) : List String := splitNlGo [] s.data

/-- Replacement of `\r\n` and bare `\r` by `\n`, fused into one pass
over the characters (equivalent to the two sequential `str.replace`
calls of the source). -/
def normNl : List Char → List Char
  | [] => []
  | '\r' :: '\n' :: cs => '\n' :: normNl cs
  | '\r' :: cs => '\n' :: normNl cs
  | c :: cs => c :: normNl cs

/-- `normalize_newlines` from the source. -/
def normalize_newlines (s : String) : String := String.mk (normNl s.data)

/-- `LOCAL_PREFIX` from the source: the reserved namespace of local
includes. -/
def LOCAL_NS : String := "byteweave/"

/-- `EXPORT_HEADER` from the source. -/
def EXPORT_HEADER : String := LOCAL_NS ++ "export.hpp"

/-- `VERSION_HEADER` from the source. -/
def VERSION_HEADER : String := LOCAL_NS ++ "version.hpp"

/-- The sentinel pseudo-path `__SYNTHESIZE_VERSION__` from the source. -/
def SYNTH_PATH : String := "__SYNTHESIZE_VERSION__"

/-- The regex `^\s*#\s*include\s*([<"])([^">]+)[>"]` applied to one
line, on character lists: optional whitespace, `#`, optional
whitespace, the word `include`, optional whitespace, an opening
delimiter, at least one character that is neither `"` nor `>`, then
either closing delimiter (they need not match the opening one); any
trailing text is ignored.  Returns the delimiter and the stripped
fragment, as `parse_include` does. -/
def parseIncL (l : List Char) : Option (Char × String) :=
  let l1 := l.dropWhile isPySpace
  if l1.head? == some '#' then
    let r2 := l1.tail.dropWhile isPySpace
    if leadsWith "include".data r2 then
      let r3 := (r2.drop 7).dropWhile isPySpace
      match r3.head? with
      | some d =>
        if d == '<' || d == '"' then
          let r4 := r3.tail
          let frag := r4.takeWhile (fun c => !(c == '"' || c == '>'))
          if (r4.dropWhile (fun c => !(c == '"' || c == '>'))).isEmpty then none
          else if frag.isEmpty then none
          else some (d, String.mk (pyStripL frag))
        else none
      | none => none
    else none
  else none

/-- `parse_include` from the source. -/
def parse_include (line : String) : Option (Char × String) := parseIncL line.data

/-- `is_local_byteweave` from the source. -/
def is_local_byteweave (path : String) : Bool := leadsWith LOCAL_NS.data path.data

/-- Numeric value of a digit run, Python `int` on a digit string. -/
def digitsVal (ds : List Char) : Nat := ds.foldl (fun n c => 10 * n + (c.toNat - 48)) 0

/-- The regex `^\s*(\d+)\.(\d+)\.(\d+)\s*$` applied to a version
string: optional surrounding whitespace around three dot-separated
digit runs. -/
def parseVer (l : List Char) : Option (Nat × Nat × Nat) :=
  let t := l.dropWhile isPySpace
  let d1 := t.takeWhile Char.isDigit
  let r1 := t.dropWhile Char.isDigit
  if d1.isEmpty then none
  else if r1.head? == some '.' then
    let t2 := r1.tail
    let d2 := t2.takeWhile Char.isDigit
    let r2 := t2.dropWhile Char.isDigit
    if d2.isEmpty then none
    else if r2.head? == some '.' then
      let t3 := r2.tail
      let d3 := t3.takeWhile Char.isDigit
      let r3 := t3.dropWhile Char.isDigit
      if d3.isEmpty then none
      else if r3.all isPySpace then some (digitsVal d1, digitsVal d2, digitsVal d3)
      else none
    else none
  else none

/-- `version_triplet` from the source; the error carries the exact
message raised by the Python code. -/
def version_triplet (v : String) : Except String (Nat × Nat × Nat) :=
  match parseVer v.data with
  | some t => .ok t
  | none => .error ("Invalid --version '" ++ v ++ "'. Expected X.Y.Z")

/-- `version_text` from the source, rendered as the list of lines of
the produced string (the trailing newline of the Python triple-quoted
string shows up as a final empty line). -/
def version_text (v : String) : Except String (List String) :=
  match version_triplet v with
  | .error e => .error e
  | .ok (x, y, z) =>
    .ok ["#define BYTEWEAVE_VERSION_MAJOR " ++ toString x,
         "#define BYTEWEAVE_VERSION_MINOR " ++ toString y,
         "#define BYTEWEAVE_VERSION_PATCH " ++ toString z,
         "#define BYTEWEAVE_VERSION_STRING \"" ++
           (toString x ++ "." ++ toString y ++ "." ++ toString z ++ "\""),
         ""]

/-- `build_preamble` from the source, as the list of lines of the
returned string. -/
def build_preamble : List String :=
  ["#pragma once",
   "#ifndef BYTEWEAVE_AMALGAMATED",
   "#  define BYTEWEAVE_AMALGAMATED 1",
   "#endif",
   "",
   "#ifndef BW_API",
   "#  define BW_API",
   "#endif",
   ""]

/-- The filesystem visible to one invocation: file contents plus the
set of existing directories. -/
structure Fs where
  files : List (String × String)
  dirs : List String
  deriving DecidableEq

/-- `Path.read_text`: content of a file, if present. -/
def Fs.read (fs : Fs) (p : String) : Option String := fs.files.lookup p

/-- `Path.exists`: true for files and directories. -/
def Fs.pathExists (fs : Fs) (p : String) : Bool :=
  (fs.read p).isSome || fs.dirs.contains p

/-- The fixed inputs of one traversal: filesystem, `repo_root` and the
optional `--generated` directory. -/
structure Ctx where
  fs : Fs
  repo_root : String
  generated : Option String

/-- `resolve_local` from the source: `none` is the skipped export
header, `SYNTH_PATH` the synthesized version placeholder. -/
def resolve_local (ctx : Ctx) (frag : String) : Except String (Option String) :=
  if frag = EXPORT_HEADER then .ok none
  else if frag = VERSION_HEADER then
    match ctx.generated with
    | some g =>
      if ctx.fs.pathExists (g ++ "/" ++ frag) then .ok (some (g ++ "/" ++ frag))
      else .error ("Expected generated version header missing: " ++ (g ++ "/" ++ frag))
    | none => .ok (some SYNTH_PATH)
  else
    if ctx.fs.pathExists (ctx.repo_root ++ "/include/" ++ frag) then
      .ok (some (ctx.repo_root ++ "/include/" ++ frag))
    else .error ("Unable to resolve local include '" ++ frag ++ "'")

/-- Result of one inliner call: produced lines, the visited set after
the call, and (ghost) the files read, in first-visit order. -/
abbrev IRes := List String × List String × List String

/-- A recursive `inline_file` result is a multi-line string appended
to `out_lines` as a single element; in the final `"\n".join` an empty
result therefore still occupies one (empty) line.  `lineify` is that
correspondence at line granularity. -/
def lineify (l : List String) : List String := if l.isEmpty then [""] else l

/-- The guard test of the inliner loop:
`line.strip().startswith("#pragma once")`. -/
def isGuardL (line : String) : Bool := leadsWith "#pragma once".data (pyStripL line.data)

/-- The per-line loop of `inline_file`, parametrized by the recursive
call `rcall` (instantiated with the inliner at one fuel step less). -/
def processLines (ctx : Ctx) (rcall : String → List String → Except String IRes) :
    List String → List String → Except String IRes
  | [], seen => .ok ([], seen, [])
  | line :: rest, seen =>
    if isGuardL line then processLines ctx rcall rest seen
    else
      match parse_include line with
      | none =>
        match processLines ctx rcall rest seen with
        | .error e => .error e
        | .ok (o, s, r) => .ok (line :: o, s, r)
      | some (_, inc) =>
        if !is_local_byteweave inc then
          match processLines ctx rcall rest seen with
          | .error e => .error e
          | .ok (o, s, r) => .ok (line :: o, s, r)
        else if inc = EXPORT_HEADER then processLines ctx rcall rest seen
        else
          match resolve_local ctx inc with
          | .error e => .error e
          | .ok none => processLines ctx rcall rest seen
          | .ok (some target) =>
            if target = SYNTH_PATH then processLines ctx rcall rest seen
            else
              match rcall target seen with
              | .error e => .error e
              | .ok (sub, s1, r1) =>
                match processLines ctx rcall rest s1 with
                | .error e => .error e
                | .ok (o, s2, r2) =>
                  .ok (("// begin: " ++ inc) :: (lineify sub ++ ("// end: " ++ inc) :: o),
                       s2, r1 ++ r2)

/-- `inline_file` from the source, with explicit fuel standing for the
unbounded Python recursion; fuel exhaustion is the distinguished error
`"FUEL"` (shown below to be unreachable at sufficient fuel). -/
def inlineF (ctx : Ctx) : Nat → String → List String → Except String IRes
  | 0, _, _ => .error "FUEL"
  | fuel + 1, path, seen =>
    if path ∈ seen then .ok ([], seen, [])
    else if path = SYNTH_PATH then .ok ([], seen, [])
    else
      match ctx.fs.read path with
      | none => .error ("Missing input file: " ++ path)
      | some text =>
        match processLines ctx (inlineF ctx fuel)
            (pySplitlines (normalize_newlines text)) (path :: seen) with
        | .error e => .error e
        | .ok (o, s, r) => .ok (o, s, path :: r)

/-- `inline_file` at its working fuel: one more than the number of
files, enough for any traversal (proved below). -/
def inline_file (ctx : Ctx) (path : String) (seen : List String) : Except String IRes :=
  inlineF ctx (ctx.fs.files.length + 1) path seen

/-- `"\n".join`. -/
def joinLines (l : List String) : String := String.intercalate "\n" l

/-- One line is entirely whitespace (so `str.rstrip` of the joined
document erases it). -/
def isWsLine (s : String) : Bool := s.data.all isPySpace

/-- Effect of `out_text = "\n".join(pieces).rstrip()` at line
granularity: trailing all-whitespace lines disappear and the last
surviving line loses its trailing whitespace. -/
def rstripLines (l : List String) : List String :=
  match l.reverse.dropWhile isWsLine with
  | [] => []
  | t :: pre => (pyRstripS t :: pre).reverse

/-- The CLI arguments after `parse_args` (the `Args` dataclass). -/
structure Args where
  entry : String
  out : String
  version : String
  generated : Option String
  repo_root : String

/-- The `needs_version` computation of `main`: `False` as soon as a
generated version artifact exists on disk, or the body contains the
major-version macro textually (a substring test on the joined body
string, exactly as `"BYTEWEAVE_VERSION_MAJOR" in body`). -/
def needs_version_flag (fs : Fs) (a : Args) (bodyLines : List String) : Bool :=
  if hasSubstr "BYTEWEAVE_VERSION_MAJOR".data (joinLines bodyLines).data then false
  else
    match a.generated with
    | some g => !fs.pathExists (g ++ "/" ++ VERSION_HEADER)
    | none => true

/-- Body of `main` after the `--generated` existence check: traversal,
version-block decision and document assembly.  The returned pair is
the output path and the written lines. -/
def mainBody (fs : Fs) (a : Args) : Except String (String × List String) :=
  match inline_file ⟨fs, a.repo_root, a.generated⟩ a.entry [] with
  | .error e => .error e
  | .ok (bodyLines, _, _) =>
    if needs_version_flag fs a bodyLines then
      match version_text a.version with
      | .error e => .error e
      | .ok vlines =>
        .ok (a.out, rstripLines (build_preamble
          ++ ("// synthesized: byteweave/version.hpp" :: vlines) ++ lineify bodyLines))
    else
      .ok (a.out, rstripLines (build_preamble ++ lineify bodyLines))

/-- `main` from the source: validation of `--entry` and `--generated`,
then `mainBody`.  On success the write to `args.out` is the returned
pair; every error aborts before it. -/
def mainRun (fs : Fs) (a : Args) : Except String (String × List String) :=
  if !fs.pathExists a.entry then .error ("--entry not found: " ++ a.entry)
  else
    match a.generated with
    | some g =>
      if !fs.pathExists g then .error ("--generated directory not found: " ++ g)
      else mainBody fs a
    | none => mainBody fs a

/-- The `__main__` handler: exit code 0 with the written file on
success, exit code 2 and no write on `AmalgamationError`. -/
def topLevel (fs : Fs) (a : Args) : Nat × Option (String × List String) :=
  match mainRun fs a with
  | .ok w => (0, some w)
  | .error _ => (2, none)

/-- A line the inliner loop passes through verbatim: neither an
include guard nor a library-namespaced include. -/
def keepLine (line : String) : Bool :=
  !isGuardL line &&
    (match parse_include line with
     | none => true
     | some (_, inc) => !is_local_byteweave inc)

/-- The pass-through lines of a line list, in order. -/
def keptLines (ls : List String) : List String := ls.filter keepLine

/-- The line list of a file as the inliner sees it. -/
def fileLines (fs : Fs) (p : String) : List String :=
  pySplitlines (normalize_newlines ((fs.read p).getD ""))

/-- Number of filesystem entries not yet visited: the termination
measure of the traversal. -/
def freshCount (fs : Fs) (seen : List String) : Nat :=
  ((fs.files.map Prod.fst).filter (fun p => decide (p ∉ seen))).length

/-- Visited-set accounting for one inliner call: afterwards the
visited set is the old one plus exactly the freshly read files, and
those reads are pairwise distinct and were not visited before. -/
def SeenInv (s s' r : List String) : Prop :=
  (∀ q, q ∈ s' ↔ q ∈ r ∨ q ∈ s) ∧ (∀ q ∈ r, q ∉ s) ∧ r.Nodup

/-- Spec-side shape (named after the spec's words, for the refinement
claim about version validation): a character list that is exactly
three nonempty digit runs separated by dots, with nothing else. -/
def VersionShape (l : List Char) : Prop :=
  ∃ d1 d2 d3 : List Char,
    d1 ≠ [] ∧ d2 ≠ [] ∧ d3 ≠ [] ∧
    d1.all Char.isDigit ∧ d2.all Char.isDigit ∧ d3.all Char.isDigit ∧
    l = d1 ++ '.' :: (d2 ++ '.' :: d3)

/-- The on-disk location of the export/shim header under the include
root. -/
def export_path (root : String) : String := root ++ "/include/" ++ EXPORT_HEADER

/-- Where a recursive traversal target can come from: a fragment other
than the export header under the include root, or the generated
version header. -/
def OkTarget (ctx : Ctx) (q : String) : Prop :=
  (∃ frag, frag ≠ EXPORT_HEADER ∧ q = ctx.repo_root ++ "/include/" ++ frag) ∨
  (∃ g, ctx.generated = some g ∧ q = g ++ "/" ++ VERSION_HEADER)

/-! ## Basic list and string lemmas -/

theorem leadsWith_iff (p l : List Char) : leadsWith p l = true ↔ List.IsPrefix p l := by
  induction p generalizing l with
  | nil => simp [leadsWith, List.nil_prefix]
  | cons a ps ih =>
    cases l with
    | nil => simp [leadsWith]
    | cons b t => simp [leadsWith, List.cons_prefix_cons, ih]

theorem dropWhile_append_all {p : Char → Bool} {l₁ l₂ : List Char}
    (h : l₁.all p) : (l₁ ++ l₂).dropWhile p = l₂.dropWhile p := by
  induction l₁ with
  | nil => rfl
  | cons a t ih =>
    simp only [List.all_cons, Bool.and_eq_true] at h
    simp [List.dropWhile_cons, h.1, ih h.2]

theorem dropWhile_append_head {p : Char → Bool} {l₁ l₂ : List Char} {c : Char} {t : List Char}
    (h : l₂ = c :: t) (hc : p c = false) :
    (l₁ ++ l₂).dropWhile p = l₁.dropWhile p ++ l₂ := by
  induction l₁ with
  | nil => simp [h, List.dropWhile_cons, hc]
  | cons a s ih =>
    by_cases ha : p a <;> simp [List.dropWhile_cons, ha, ih]

theorem takeWhile_append_head {p : Char → Bool} {l₁ l₂ : List Char} {c : Char} {t : List Char}
    (hall : l₁.all p) (h : l₂ = c :: t) (hc : p c = false) :
    (l₁ ++ l₂).takeWhile p = l₁ := by
  induction l₁ with
  | nil => simp [h, List.takeWhile_cons, hc]
  | cons a s ih =>
    simp only [List.all_cons, Bool.and_eq_true] at hall
    simp [List.takeWhile_cons, hall.1, ih hall.2]

theorem takeWhile_of_all {p : Char → Bool} {l : List Char} (h : l.all p) :
    l.takeWhile p = l := by
  induction l with
  | nil => rfl
  | cons a t ih =>
    simp only [List.all_cons, Bool.and_eq_true] at h
    simp [List.takeWhile_cons, h.1, ih h.2]

theorem dropWhile_of_all {p : Char → Bool} {l : List Char} (h : l.all p) :
    l.dropWhile p = [] := by
  induction l with
  | nil => rfl
  | cons a t ih =>
    simp only [List.all_cons, Bool.and_eq_true] at h
    simp [List.dropWhile_cons, h.1, ih h.2]

theorem dropWhile_head_not {p : Char → Bool} {l : List Char} {a : Char} {t : List Char}
    (h : l.dropWhile p = a :: t) : p a = false := by
  induction l with
  | nil => simp at h
  | cons b s ih =>
    rw [List.dropWhile_cons] at h
    by_cases hb : p b
    · simp only [hb, if_true] at h; exact ih h
    · simp only [hb, if_false] at h
      cases h
      simpa using hb

theorem dropWhile_idem (p : Char → Bool) (l : List Char) :
    (l.dropWhile p).dropWhile p = l.dropWhile p := by
  cases hd : l.dropWhile p with
  | nil => rfl
  | cons a t => simp [List.dropWhile_cons, dropWhile_head_not hd]

theorem pyRtrim_pre (l : List Char) : List.IsPrefix (pyRtrim l) l := by
  have hs : List.IsSuffix (l.reverse.dropWhile isPySpace) l.reverse :=
    List.dropWhile_suffix isPySpace
  have h2 := @List.reverse_suffix Char ((l.reverse.dropWhile isPySpace).reverse) l
  rw [List.reverse_reverse] at h2
  exact h2.mp hs

theorem pyRtrim_eq_nil_iff (l : List Char) : pyRtrim l = [] ↔ l.all isPySpace = true := by
  unfold pyRtrim
  rw [List.reverse_eq_nil_iff, List.dropWhile_eq_nil_iff]
  constructor
  · intro h; rw [List.all_eq_true]; intro x hx; exact h x (by simpa using hx)
  · intro h x hx; rw [List.all_eq_true] at h; exact h x (by simpa using hx)

theorem pyRtrim_idem (l : List Char) : pyRtrim (pyRtrim l) = pyRtrim l := by
  unfold pyRtrim
  rw [List.reverse_reverse, dropWhile_idem]

theorem dropWhile_append_not_all {p : Char → Bool} {a b : List Char}
    (h : a.all p = false) : (a ++ b).dropWhile p = a.dropWhile p ++ b := by
  induction a with
  | nil => simp at h
  | cons x s ih =>
    by_cases hx : p x
    · simp only [List.all_cons, hx, Bool.true_and] at h
      simp [List.dropWhile_cons, hx, ih h]
    · simp [List.dropWhile_cons, hx]

theorem ltrim_rtrim_comm (l : List Char) : pyLtrim (pyRtrim l) = pyRtrim (pyLtrim l) := by
  by_cases hall : l.all isPySpace
  · have h1 : pyRtrim l = [] := (pyRtrim_eq_nil_iff l).mpr hall
    have h2 : pyLtrim l = [] := dropWhile_of_all hall
    rw [h1, h2]
    rfl
  · have hsplit := List.takeWhile_append_dropWhile (p := isPySpace) (l := l)
    have hwall : (l.takeWhile isPySpace).all isPySpace := List.all_takeWhile
    have hmall : (l.dropWhile isPySpace).all isPySpace = false := by
      cases hmc : l.dropWhile isPySpace with
      | nil =>
        exact absurd (by rwa [List.dropWhile_eq_nil_iff, ← List.all_eq_true] at hmc) hall
      | cons c t => simp [dropWhile_head_not hmc]
    have hrt : pyRtrim l = l.takeWhile isPySpace ++ pyRtrim (l.dropWhile isPySpace) := by
      conv_lhs => rw [pyRtrim, ← hsplit]
      rw [List.reverse_append, dropWhile_append_not_all (by rwa [List.all_reverse]),
        List.reverse_append, List.reverse_reverse]
      rfl
    rw [hrt]
    show List.dropWhile isPySpace
        (l.takeWhile isPySpace ++ pyRtrim (l.dropWhile isPySpace)) =
      pyRtrim (l.dropWhile isPySpace)
    rw [dropWhile_append_all hwall]
    cases hp : pyRtrim (l.dropWhile isPySpace) with
    | nil => rfl
    | cons c t =>
      have hpre := pyRtrim_pre (l.dropWhile isPySpace)
      rw [hp] at hpre
      have hc : isPySpace c = false := by
        obtain ⟨u, hu⟩ := hpre
        exact dropWhile_head_not (l := l) (by rw [← hu]; rfl)
      simp [List.dropWhile_cons, hc]

theorem pyStripL_rtrim (l : List Char) : pyStripL (pyRtrim l) = pyStripL l := by
  rw [pyStripL, pyStripL, ltrim_rtrim_comm, pyRtrim_idem]

theorem isGuardL_rstrip (t : String) : isGuardL (pyRstripS t) = isGuardL t := by
  rw [isGuardL, isGuardL, pyRstripS]
  show leadsWith _ (pyStripL (pyRtrim t.data)) = _
  rw [pyStripL_rtrim]

/-! ## Guard recognition -/

theorem isGuardL_eq_false {s : String} {c₀ c₁ : Char} {t : List Char}
    (hl : s.data = c₀ :: c₁ :: t) (h₀ : isPySpace c₀ = false)
    (hne : ¬(c₀ = '#' ∧ c₁ = 'p')) : isGuardL s = false := by
  rw [isGuardL]
  by_contra hg
  rw [Bool.not_eq_false, leadsWith_iff] at hg
  have h2 : List.IsPrefix "#pragma once".data (pyLtrim s.data) :=
    hg.trans (pyRtrim_pre _)
  rw [hl] at h2
  have hd : pyLtrim (c₀ :: c₁ :: t) = c₀ :: c₁ :: t := by
    show List.dropWhile _ _ = _
    simp [List.dropWhile_cons, h₀]
  rw [hd, show "#pragma once".data = '#' :: 'p' :: "ragma once".data from rfl,
    List.cons_prefix_cons] at h2
  obtain ⟨e₀, h2⟩ := h2
  rw [List.cons_prefix_cons] at h2
  exact hne ⟨e₀.symm, h2.1.symm⟩

theorem isGuardL_marker (pre inc : String) (c₀ c₁ : Char) (t : List Char)
    (hpre : pre.data = c₀ :: c₁ :: t) (h₀ : isPySpace c₀ = false)
    (hne : ¬(c₀ = '#' ∧ c₁ = 'p')) : isGuardL (pre ++ inc) = false := by
  refine @isGuardL_eq_false (pre ++ inc) c₀ c₁ (t ++ inc.data) ?_ h₀ hne
  rw [String.data_append, hpre]
  rfl

theorem parse_include_of_guard {line : String} (h : isGuardL line = true) :
    parse_include line = none := by
  rw [isGuardL, leadsWith_iff] at h
  have h2 : List.IsPrefix "#pragma once".data (pyLtrim line.data) :=
    h.trans (pyRtrim_pre _)
  obtain ⟨rest, hrest⟩ := h2
  have hdw : line.data.dropWhile isPySpace = '#' :: ('p' :: ("ragma once".data ++ rest)) := by
    rw [show line.data.dropWhile isPySpace = pyLtrim line.data from rfl, ← hrest]
    rfl
  rw [parse_include, parseIncL, hdw]
  have hp : isPySpace 'p' = false := by decide
  simp [List.dropWhile_cons, hp, leadsWith]

/-! ## Visited-set accounting -/

theorem seenInv_refl (s : List String) : SeenInv s s [] :=
  ⟨fun q => by simp, by simp, List.nodup_nil⟩

theorem seenInv_comp {s s1 s2 : List String} {r1 r2 : List String}
    (h1 : SeenInv s s1 r1) (h2 : SeenInv s1 s2 r2) : SeenInv s s2 (r1 ++ r2) := by
  obtain ⟨m1, f1, n1⟩ := h1
  obtain ⟨m2, f2, n2⟩ := h2
  refine ⟨?_, ?_, ?_⟩
  · intro q
    rw [m2 q, m1 q]
    simp only [List.mem_append]
    tauto
  · intro q hq
    rcases List.mem_append.mp hq with h | h
    · exact f1 q h
    · intro hqs
      exact f2 q h ((m1 q).mpr (Or.inr hqs))
  · rw [List.nodup_append]
    exact ⟨n1, n2, fun q hq1 hq2 => f2 q hq2 ((m1 q).mpr (Or.inl hq1))⟩

/-! ## Inversion of one loop step -/

/-- Everything that can have happened when one line of the loop was
processed successfully: the line was dropped, passed through, or
expanded into a marker-wrapped splice. -/
theorem processLines_cons_ok {ctx : Ctx} {rcall : String → List String → Except String IRes}
    {line : String} {rest : List String} {seen o s' r : List String}
    (h : processLines ctx rcall (line :: rest) seen = .ok (o, s', r)) :
    (keepLine line = false ∧ processLines ctx rcall rest seen = .ok (o, s', r)) ∨
    (keepLine line = true ∧
      ∃ o₂, processLines ctx rcall rest seen = .ok (o₂, s', r) ∧ o = line :: o₂) ∨
    (keepLine line = false ∧ isGuardL line = false ∧
      ∃ d inc target sub s1 r1 o₂ r2,
        parse_include line = some (d, inc) ∧ is_local_byteweave inc = true ∧
        inc ≠ EXPORT_HEADER ∧ resolve_local ctx inc = .ok (some target) ∧
        target ≠ SYNTH_PATH ∧ rcall target seen = .ok (sub, s1, r1) ∧
        processLines ctx rcall rest s1 = .ok (o₂, s', r2) ∧
        o = ("// begin: " ++ inc) :: (lineify sub ++ ("// end: " ++ inc) :: o₂) ∧
        r = r1 ++ r2) := by
  rw [processLines] at h
  by_cases hg : isGuardL line
  · rw [if_pos hg] at h
    exact Or.inl ⟨by simp [keepLine, hg], h⟩
  · rw [if_neg hg] at h
    cases hp : parse_include line with
    | none =>
      rw [hp] at h
      dsimp only [] at h
      cases hrest : processLines ctx rcall rest seen with
      | error e =>
        rw [hrest] at h
        exact absurd h (by simp)
      | ok res =>
        obtain ⟨o₂, s₂, r₂⟩ := res
        rw [hrest] at h
        dsimp only [] at h
        simp only [Except.ok.injEq, Prod.mk.injEq] at h
        obtain ⟨ho, hs, hr⟩ := h
        refine Or.inr (Or.inl ⟨by simp [keepLine, hg, hp], o₂, ?_, ho.symm⟩)
        rw [← hs, ← hr]
    | some pr =>
      obtain ⟨d, inc⟩ := pr
      rw [hp] at h
      dsimp only [] at h
      by_cases hloc : is_local_byteweave inc
      · rw [show (!is_local_byteweave inc) = false by simp [hloc]] at h
        rw [if_neg (by simp)] at h
        by_cases hexp : inc = EXPORT_HEADER
        · rw [if_pos hexp] at h
          exact Or.inl ⟨by simp [keepLine, hg, hp, hloc], h⟩
        · rw [if_neg hexp] at h
          cases hres : resolve_local ctx inc with
          | error e =>
            rw [hres] at h
            exact absurd h (by simp)
          | ok tgt =>
            rw [hres] at h
            cases tgt with
            | none =>
              dsimp only [] at h
              exact Or.inl ⟨by simp [keepLine, hg, hp, hloc], h⟩
            | some target =>
              dsimp only [] at h
              by_cases hsyn : target = SYNTH_PATH
              · rw [if_pos hsyn] at h
                exact Or.inl ⟨by simp [keepLine, hg, hp, hloc], h⟩
              · rw [if_neg hsyn] at h
                cases hrec : rcall target seen with
                | error e =>
                  rw [hrec] at h
                  exact absurd h (by simp)
                | ok res1 =>
                  obtain ⟨sub, s1, r1⟩ := res1
                  rw [hrec] at h
                  dsimp only [] at h
                  cases hrest : processLines ctx rcall rest s1 with
                  | error e =>
                    rw [hrest] at h
                    exact absurd h (by simp)
                  | ok res2 =>
                    obtain ⟨o₂, s₂, r₂⟩ := res2
                    rw [hrest] at h
                    dsimp only [] at h
                    simp only [Except.ok.injEq, Prod.mk.injEq] at h
                    obtain ⟨ho, hs, hr⟩ := h
                    refine Or.inr (Or.inr ⟨by simp [keepLine, hg, hp, hloc],
                      by simpa using hg,
                      d, inc, target, sub, s1, r1, o₂, r₂, rfl, by simpa using hloc, hexp,
                      hres, hsyn, hrec, ?_, ho.symm, ?_⟩)
                    · rw [← hs]
                      exact hrest
                    · rw [hr]
      · rw [show (!is_local_byteweave inc) = true by simp [hloc]] at h
        rw [if_pos rfl] at h
        cases hrest : processLines ctx rcall rest seen with
        | error e =>
          rw [hrest] at h
          exact absurd h (by simp)
        | ok res =>
          obtain ⟨o₂, s₂, r₂⟩ := res
          rw [hrest] at h
          dsimp only [] at h
          simp only [Except.ok.injEq, Prod.mk.injEq] at h
          obtain ⟨ho, hs, hr⟩ := h
          refine Or.inr (Or.inl ⟨by simp [keepLine, hg, hp, hloc], o₂, ?_, ho.symm⟩)
          rw [← hs, ← hr]

/-! ## Traversal invariants -/

theorem processLines_seenInv {ctx : Ctx} {rcall : String → List String → Except String IRes}
    (hrec : ∀ p s o s' r, rcall p s = .ok (o, s', r) → SeenInv s s' r) :
    ∀ (lines : List String) (seen o s' r : List String),
      processLines ctx rcall lines seen = .ok (o, s', r) → SeenInv seen s' r := by
  intro lines
  induction lines with
  | nil =>
    intro seen o s' r h
    rw [processLines] at h
    simp only [Except.ok.injEq, Prod.mk.injEq] at h
    obtain ⟨-, hs, hr⟩ := h
    rw [← hs, ← hr]
    exact seenInv_refl seen
  | cons line rest ih =>
    intro seen o s' r h
    rcases processLines_cons_ok h with ⟨-, hnx⟩ | ⟨-, o₂, hnx, -⟩ |
      ⟨-, -, d, inc, target, sub, s1, r1, o₂, r2, -, -, -, -, -, hcall, hnx, -, hrfl⟩
    · exact ih seen o s' r hnx
    · exact ih seen o₂ s' r hnx
    · subst hrfl
      exact seenInv_comp (hrec _ _ _ _ _ hcall) (ih _ _ _ _ hnx)

theorem inlineF_seenInv (ctx : Ctx) :
    ∀ (fuel : Nat) (p : String) (seen o s' r : List String),
      inlineF ctx fuel p seen = .ok (o, s', r) → SeenInv seen s' r := by
  intro fuel
  induction fuel with
  | zero =>
    intro p seen o s' r h
    rw [inlineF] at h
    exact absurd h (by simp)
  | succ f ih =>
    intro p seen o s' r h
    rw [inlineF] at h
    by_cases hmem : p ∈ seen
    · rw [if_pos hmem] at h
      simp only [Except.ok.injEq, Prod.mk.injEq] at h
      obtain ⟨-, hs, hr⟩ := h
      rw [← hs, ← hr]
      exact seenInv_refl seen
    · rw [if_neg hmem] at h
      by_cases hsyn : p = SYNTH_PATH
      · rw [if_pos hsyn] at h
        simp only [Except.ok.injEq, Prod.mk.injEq] at h
        obtain ⟨-, hs, hr⟩ := h
        rw [← hs, ← hr]
        exact seenInv_refl seen
      · rw [if_neg hsyn] at h
        cases hread : ctx.fs.read p with
        | none =>
          rw [hread] at h
          exact absurd h (by simp)
        | some text =>
          rw [hread] at h
          dsimp only [] at h
          cases hpl : processLines ctx (inlineF ctx f)
              (pySplitlines (normalize_newlines text)) (p :: seen) with
          | error e =>
            rw [hpl] at h
            exact absurd h (by simp)
          | ok res =>
            obtain ⟨o₁, s₁, r₁⟩ := res
            rw [hpl] at h
            dsimp only [] at h
            simp only [Except.ok.injEq, Prod.mk.injEq] at h
            obtain ⟨ho, hs, hr⟩ := h
            have hinv := processLines_seenInv (fun p s o s' r hc => ih p s o s' r hc)
              _ _ _ _ _ hpl
            obtain ⟨m, fr, nd⟩ := hinv
            rw [← hs, ← hr]
            refine ⟨?_, ?_, ?_⟩
            · intro q
              rw [m q]
              simp only [List.mem_cons]
              tauto
            · intro q hq
              rcases List.mem_cons.mp hq with rfl | hq'
              · exact hmem
              · intro hqs
                exact fr q hq' (List.mem_cons_of_mem _ hqs)
            · rw [List.nodup_cons]
              exact ⟨fun hp1 => fr p hp1 (List.mem_cons_self _ _), nd⟩

/-! ## Order preservation -/

theorem sublist_lineify {a b : List String} (h : List.Sublist a b) :
    List.Sublist a (lineify b) := by
  rw [lineify]
  by_cases hb : b.isEmpty
  · rw [if_pos hb]
    rw [List.isEmpty_iff] at hb
    subst hb
    rw [List.sublist_nil.mp h]
    exact List.nil_sublist _
  · rw [if_neg hb]
    exact h

theorem sublist_append_left {a l : List String} (x : List String)
    (h : List.Sublist a l) : List.Sublist a (x ++ l) :=
  h.trans (List.sublist_append_right x l)

theorem keptLines_cons_keep {line : String} {rest : List String}
    (h : keepLine line = true) : keptLines (line :: rest) = line :: keptLines rest := by
  simp [keptLines, List.filter_cons, h]

theorem keptLines_cons_drop {line : String} {rest : List String}
    (h : keepLine line = false) : keptLines (line :: rest) = keptLines rest := by
  simp [keptLines, List.filter_cons, h]

theorem processLines_sublist {ctx : Ctx} {rcall : String → List String → Except String IRes}
    (hrec : ∀ p s o s' r, rcall p s = .ok (o, s', r) →
      ∀ q ∈ r, List.Sublist (keptLines (fileLines ctx.fs q)) o) :
    ∀ (lines : List String) (seen o s' r : List String),
      processLines ctx rcall lines seen = .ok (o, s', r) →
      List.Sublist (keptLines lines) o ∧
        ∀ q ∈ r, List.Sublist (keptLines (fileLines ctx.fs q)) o := by
  intro lines
  induction lines with
  | nil =>
    intro seen o s' r h
    rw [processLines] at h
    simp only [Except.ok.injEq, Prod.mk.injEq] at h
    obtain ⟨ho, -, hr⟩ := h
    rw [← ho, ← hr]
    exact ⟨by rw [keptLines]; exact List.nil_sublist _, by simp⟩
  | cons line rest ih =>
    intro seen o s' r h
    rcases processLines_cons_ok h with ⟨hk, hnx⟩ | ⟨hk, o₂, hnx, ho⟩ |
      ⟨hk, hg, d, inc, target, sub, s1, r1, o₂, r2, hp, hloc, hexp, hres, hsyn,
        hcall, hnx, ho, hrfl⟩
    · obtain ⟨h1, h2⟩ := ih _ _ _ _ hnx
      rw [keptLines_cons_drop hk]
      exact ⟨h1, h2⟩
    · obtain ⟨h1, h2⟩ := ih _ _ _ _ hnx
      subst ho
      rw [keptLines_cons_keep hk]
      exact ⟨h1.cons₂ line, fun q hq => (h2 q hq).cons line⟩
    · subst ho
      subst hrfl
      obtain ⟨h1, h2⟩ := ih _ _ _ _ hnx
      rw [keptLines_cons_drop hk]
      have hext : ∀ a : List String, List.Sublist a o₂ →
          List.Sublist a (("// begin: " ++ inc) ::
            (lineify sub ++ ("// end: " ++ inc) :: o₂)) := by
        intro a ha
        exact (sublist_append_left (lineify sub) (ha.cons _)).cons _
      have hsubx : ∀ a : List String, List.Sublist a sub →
          List.Sublist a (("// begin: " ++ inc) ::
            (lineify sub ++ ("// end: " ++ inc) :: o₂)) := by
        intro a ha
        exact ((sublist_lineify ha).trans
          (List.sublist_append_left _ _)).cons _
      refine ⟨hext _ h1, ?_⟩
      intro q hq
      rcases List.mem_append.mp hq with hq1 | hq2
      · exact hsubx _ (hrec _ _ _ _ _ hcall q hq1)
      · exact hext _ (h2 q hq2)

theorem inlineF_sublist (ctx : Ctx) :
    ∀ (fuel : Nat) (p : String) (seen o s' r : List String),
      inlineF ctx fuel p seen = .ok (o, s', r) →
      ∀ q ∈ r, List.Sublist (keptLines (fileLines ctx.fs q)) o := by
  intro fuel
  induction fuel with
  | zero =>
    intro p seen o s' r h
    rw [inlineF] at h
    exact absurd h (by simp)
  | succ f ih =>
    intro p seen o s' r h
    rw [inlineF] at h
    by_cases hmem : p ∈ seen
    · rw [if_pos hmem] at h
      simp only [Except.ok.injEq, Prod.mk.injEq] at h
      obtain ⟨-, -, hr⟩ := h
      rw [← hr]
      simp
    · rw [if_neg hmem] at h
      by_cases hsyn : p = SYNTH_PATH
      · rw [if_pos hsyn] at h
        simp only [Except.ok.injEq, Prod.mk.injEq] at h
        obtain ⟨-, -, hr⟩ := h
        rw [← hr]
        simp
      · rw [if_neg hsyn] at h
        cases hread : ctx.fs.read p with
        | none =>
          rw [hread] at h
          exact absurd h (by simp)
        | some text =>
          rw [hread] at h
          dsimp only [] at h
          cases hpl : processLines ctx (inlineF ctx f)
              (pySplitlines (normalize_newlines text)) (p :: seen) with
          | error e =>
            rw [hpl] at h
            exact absurd h (by simp)
          | ok res =>
            obtain ⟨o₁, s₁, r₁⟩ := res
            rw [hpl] at h
            dsimp only [] at h
            simp only [Except.ok.injEq, Prod.mk.injEq] at h
            obtain ⟨ho, hs, hr⟩ := h
            have hps := processLines_sublist (fun p s o s' r hc => ih p s o s' r hc)
              _ _ _ _ _ hpl
            rw [← ho, ← hr]
            intro q hq
            rcases List.mem_cons.mp hq with rfl | hq'
            · have : fileLines ctx.fs q = pySplitlines (normalize_newlines text) := by
                rw [fileLines, hread]
                rfl
              rw [this]
              exact hps.1
            · exact hps.2 q hq'

/-! ## No guard line survives inlining -/

theorem isGuardL_begin (inc : String) : isGuardL ("// begin: " ++ inc) = false :=
  isGuardL_marker "// begin: " inc '/' '/' " begin: ".data rfl (by decide) (by decide)

theorem isGuardL_end_marker (inc : String) : isGuardL ("// end: " ++ inc) = false :=
  isGuardL_marker "// end: " inc '/' '/' " end: ".data rfl (by decide) (by decide)

theorem isGuardL_empty : isGuardL "" = false := by decide

theorem mem_lineify {x : String} {l : List String} (hx : x ∈ lineify l) :
    x ∈ l ∨ x = "" := by
  rw [lineify] at hx
  by_cases hl : l.isEmpty
  · rw [if_pos hl] at hx
    right
    simpa using hx
  · rw [if_neg hl] at hx
    exact Or.inl hx

theorem processLines_noGuard {ctx : Ctx} {rcall : String → List String → Except String IRes}
    (hrec : ∀ p s o s' r, rcall p s = .ok (o, s', r) → ∀ x ∈ o, isGuardL x = false) :
    ∀ (lines : List String) (seen o s' r : List String),
      processLines ctx rcall lines seen = .ok (o, s', r) →
      ∀ x ∈ o, isGuardL x = false := by
  intro lines
  induction lines with
  | nil =>
    intro seen o s' r h
    rw [processLines] at h
    simp only [Except.ok.injEq, Prod.mk.injEq] at h
    obtain ⟨ho, -, -⟩ := h
    rw [← ho]
    simp
  | cons line rest ih =>
    intro seen o s' r h
    rcases processLines_cons_ok h with ⟨hk, hnx⟩ | ⟨hk, o₂, hnx, ho⟩ |
      ⟨hk, hg, d, inc, target, sub, s1, r1, o₂, r2, hp, hloc, hexp, hres, hsyn,
        hcall, hnx, ho, hrfl⟩
    · exact ih _ _ _ _ hnx
    · subst ho
      intro x hx
      rcases List.mem_cons.mp hx with rfl | hx'
      · rw [keepLine] at hk
        exact (Bool.and_eq_true _ _).mp hk |>.1 |> (by simpa using ·)
      · exact ih _ _ _ _ hnx x hx'
    · subst ho
      intro x hx
      rcases List.mem_cons.mp hx with rfl | hx'
      · exact isGuardL_begin inc
      · rcases List.mem_append.mp hx' with hx1 | hx2
        · rcases mem_lineify hx1 with hxs | rfl
          · exact hrec _ _ _ _ _ hcall x hxs
          · exact isGuardL_empty
        · rcases List.mem_cons.mp hx2 with rfl | hx3
          · exact isGuardL_end_marker inc
          · exact ih _ _ _ _ hnx x hx3

theorem inlineF_noGuard (ctx : Ctx) :
    ∀ (fuel : Nat) (p : String) (seen o s' r : List String),
      inlineF ctx fuel p seen = .ok (o, s', r) → ∀ x ∈ o, isGuardL x = false := by
  intro fuel
  induction fuel with
  | zero =>
    intro p seen o s' r h
    rw [inlineF] at h
    exact absurd h (by simp)
  | succ f ih =>
    intro p seen o s' r h
    rw [inlineF] at h
    by_cases hmem : p ∈ seen
    · rw [if_pos hmem] at h
      simp only [Except.ok.injEq, Prod.mk.injEq] at h
      obtain ⟨ho, -, -⟩ := h
      rw [← ho]
      simp
    · rw [if_neg hmem] at h
      by_cases hsyn : p = SYNTH_PATH
      · rw [if_pos hsyn] at h
        simp only [Except.ok.injEq, Prod.mk.injEq] at h
        obtain ⟨ho, -, -⟩ := h
        rw [← ho]
        simp
      · rw [if_neg hsyn] at h
        cases hread : ctx.fs.read p with
        | none =>
          rw [hread] at h
          exact absurd h (by simp)
        | some text =>
          rw [hread] at h
          dsimp only [] at h
          cases hpl : processLines ctx (inlineF ctx f)
              (pySplitlines (normalize_newlines text)) (p :: seen) with
          | error e =>
            rw [hpl] at h
            exact absurd h (by simp)
          | ok res =>
            obtain ⟨o₁, s₁, r₁⟩ := res
            rw [hpl] at h
            dsimp only [] at h
            simp only [Except.ok.injEq, Prod.mk.injEq] at h
            obtain ⟨ho, -, -⟩ := h
            rw [← ho]
            exact processLines_noGuard (fun p s o s' r hc => ih p s o s' r hc) _ _ _ _ _ hpl

/-! ## Fuel stabilization (termination) -/

theorem mem_of_lookup {l : List (String × String)} {p v : String}
    (h : l.lookup p = some v) : p ∈ l.map Prod.fst := by
  induction l with
  | nil => simp [List.lookup] at h
  | cons a t ih =>
    rw [List.lookup] at h
    cases hp : p == a.1
    · rw [hp] at h
      dsimp only [] at h
      exact List.mem_cons_of_mem _ (ih h)
    · simp only [List.map_cons, List.mem_cons]
      exact Or.inl (by simpa using hp)

theorem length_filter_le {α} (l : List α) (p q : α → Bool)
    (himp : ∀ x, p x = true → q x = true) :
    (l.filter p).length ≤ (l.filter q).length := by
  induction l with
  | nil => simp
  | cons a t ih =>
    rw [List.filter_cons, List.filter_cons]
    by_cases hp : p a
    · rw [if_pos hp, if_pos (himp a hp)]
      simpa using ih
    · rw [if_neg hp]
      by_cases hq : q a
      · rw [if_pos hq]
        exact ih.trans (Nat.le_succ _)
      · rw [if_neg hq]
        exact ih

theorem length_filter_lt {α} (l : List α) (p q : α → Bool)
    (himp : ∀ x, p x = true → q x = true) (a : α) (ha : a ∈ l)
    (hqa : q a = true) (hpa : p a = false) :
    (l.filter p).length < (l.filter q).length := by
  induction l with
  | nil => simp at ha
  | cons b t ih =>
    rw [List.filter_cons, List.filter_cons]
    rcases List.mem_cons.mp ha with rfl | hat
    · rw [if_neg (by simp [hpa]), if_pos hqa]
      exact Nat.lt_succ_of_le (length_filter_le t p q himp)
    · by_cases hp : p b
      · rw [if_pos hp, if_pos (himp b hp)]
        simpa using ih hat
      · rw [if_neg hp]
        by_cases hq : q b
        · rw [if_pos hq]
          exact (ih hat).trans (Nat.lt_succ_self _)
        · rw [if_neg hq]
          exact ih hat

theorem freshCount_le_of_superset (fs : Fs) {s s' : List String}
    (h : ∀ q ∈ s, q ∈ s') : freshCount fs s' ≤ freshCount fs s := by
  refine length_filter_le _ _ _ ?_
  intro x hx
  simp only [decide_eq_true_eq] at hx ⊢
  intro hxs
  exact hx (h x hxs)

theorem freshCount_lt_of_fresh (fs : Fs) {p : String} {seen : List String}
    (hp : p ∈ fs.files.map Prod.fst) (hns : p ∉ seen) :
    freshCount fs (p :: seen) < freshCount fs seen := by
  refine length_filter_lt _ _ _ ?_ p hp (by simpa using hns) (by simp)
  intro x hx
  simp only [decide_eq_true_eq] at hx ⊢
  intro hxs
  exact hx (List.mem_cons_of_mem _ hxs)

theorem processLines_congr {ctx : Ctx} {rc1 rc2 : String → List String → Except String IRes}
    {P : List String → Prop}
    (hPmono : ∀ t t', P t → (∀ q ∈ t, q ∈ t') → P t')
    (hrec : ∀ q t, P t → rc1 q t = rc2 q t)
    (hmono : ∀ q t o s' r, rc1 q t = .ok (o, s', r) → ∀ x ∈ t, x ∈ s') :
    ∀ (lines : List String) (seen : List String), P seen →
      processLines ctx rc1 lines seen = processLines ctx rc2 lines seen := by
  intro lines
  induction lines with
  | nil =>
    intro seen hP
    rw [processLines, processLines]
  | cons line rest ih =>
    intro seen hP
    rw [processLines, processLines]
    by_cases hg : isGuardL line
    · rw [if_pos hg, if_pos hg]
      exact ih seen hP
    · rw [if_neg hg, if_neg hg]
      cases hp : parse_include line with
      | none =>
        rw [ih seen hP]
      | some pr =>
        obtain ⟨d, inc⟩ := pr
        dsimp only []
        by_cases hloc : is_local_byteweave inc
        · rw [show (!is_local_byteweave inc) = false by simp [hloc]]
          conv_lhs => rw [if_neg (show ¬(false = true) by simp)]
          conv_rhs => rw [if_neg (show ¬(false = true) by simp)]
          by_cases hexp : inc = EXPORT_HEADER
          · rw [if_pos hexp, if_pos hexp]
            exact ih seen hP
          · rw [if_neg hexp, if_neg hexp]
            cases hres : resolve_local ctx inc with
            | error e => rfl
            | ok tgt =>
              cases tgt with
              | none => exact ih seen hP
              | some target =>
                dsimp only []
                by_cases hsyn : target = SYNTH_PATH
                · rw [if_pos hsyn, if_pos hsyn]
                  exact ih seen hP
                · rw [if_neg hsyn, if_neg hsyn]
                  rw [hrec target seen hP]
                  cases h2 : rc2 target seen with
                  | error e => rfl
                  | ok res1 =>
                    obtain ⟨sub, s1, r1⟩ := res1
                    dsimp only []
                    have hP1 : P s1 :=
                      hPmono seen s1 hP
                        (hmono target seen sub s1 r1 (by rw [hrec target seen hP, h2]))
                    rw [ih s1 hP1]
        · rw [show (!is_local_byteweave inc) = true by simp [hloc]]
          conv_lhs => rw [if_pos (show true = true from rfl)]
          conv_rhs => rw [if_pos (show true = true from rfl)]
          rw [ih seen hP]

theorem inlineF_stable (ctx : Ctx) :
    ∀ (n : Nat) (p : String) (seen : List String) (f₁ f₂ : Nat),
      freshCount ctx.fs seen ≤ n → n < f₁ → n < f₂ →
      inlineF ctx f₁ p seen = inlineF ctx f₂ p seen := by
  intro n
  induction n using Nat.strong_induction_on with
  | _ n IH =>
    intro p seen f₁ f₂ hfc h1 h2
    obtain ⟨g₁, rfl⟩ : ∃ g, f₁ = g + 1 := ⟨f₁ - 1, by omega⟩
    obtain ⟨g₂, rfl⟩ : ∃ g, f₂ = g + 1 := ⟨f₂ - 1, by omega⟩
    rw [inlineF, inlineF]
    by_cases hmem : p ∈ seen
    · rw [if_pos hmem, if_pos hmem]
    · rw [if_neg hmem, if_neg hmem]
      by_cases hsyn : p = SYNTH_PATH
      · rw [if_pos hsyn, if_pos hsyn]
      · rw [if_neg hsyn, if_neg hsyn]
        cases hread : ctx.fs.read p with
        | none => rfl
        | some text =>
          dsimp only []
          have hpmem : p ∈ ctx.fs.files.map Prod.fst := mem_of_lookup hread
          have hlt : freshCount ctx.fs (p :: seen) < freshCount ctx.fs seen :=
            freshCount_lt_of_fresh ctx.fs hpmem hmem
          have hn1 : 1 ≤ n := by
            have := Nat.lt_of_lt_of_le hlt hfc
            omega
          have hcg : processLines ctx (inlineF ctx g₁)
              (pySplitlines (normalize_newlines text)) (p :: seen) =
              processLines ctx (inlineF ctx g₂)
              (pySplitlines (normalize_newlines text)) (p :: seen) := by
            refine processLines_congr (P := fun t => freshCount ctx.fs t ≤ n - 1)
              ?_ ?_ ?_ _ _ ?_
            · intro t t' hPt hsub
              exact (freshCount_le_of_superset ctx.fs hsub).trans hPt
            · intro q t hPt
              exact IH (n - 1) (by omega) q t g₁ g₂ hPt (by omega) (by omega)
            · intro q t o s' r hok x hx
              obtain ⟨m, -, -⟩ := inlineF_seenInv ctx g₁ q t o s' r hok
              exact (m x).mpr (Or.inr hx)
            · omega
          rw [hcg]

/-! ## Version-string validation -/

theorem isDigit_not_space {c : Char} (h : c.isDigit = true) : isPySpace c = false := by
  by_contra hx
  rw [Bool.not_eq_false, isPySpace] at hx
  simp only [Bool.or_eq_true, beq_iff_eq] at hx
  rcases hx with ((((rfl | rfl) | rfl) | rfl) | rfl) | rfl <;> exact absurd h (by decide)

theorem isSpace_not_digit {c : Char} (h : isPySpace c = true) : c.isDigit = false := by
  by_contra hx
  rw [Bool.not_eq_false] at hx
  rw [isDigit_not_space hx] at h
  exact absurd h (by simp)

theorem dropWhile_cons_head {p : Char → Bool} {c : Char} {t : List Char}
    (hc : p c = false) : (c :: t).dropWhile p = c :: t := by
  simp [List.dropWhile_cons, hc]

theorem parseVer_some_iff {l : List Char} {x y z : Nat} :
    parseVer l = some (x, y, z) ↔
      ∃ w1 d1 d2 d3 w2 : List Char,
        d1 ≠ [] ∧ d2 ≠ [] ∧ d3 ≠ [] ∧
        w1.all isPySpace ∧ w2.all isPySpace ∧
        d1.all Char.isDigit ∧ d2.all Char.isDigit ∧ d3.all Char.isDigit ∧
        l = w1 ++ (d1 ++ '.' :: (d2 ++ '.' :: d3)) ++ w2 ∧
        x = digitsVal d1 ∧ y = digitsVal d2 ∧ z = digitsVal d3 := by
  constructor
  · intro h
    rw [parseVer] at h
    by_cases h1 : ((l.dropWhile isPySpace).takeWhile Char.isDigit).isEmpty
    · rw [if_pos h1] at h
      exact absurd h (by simp)
    rw [if_neg h1] at h
    by_cases hb1 : (((l.dropWhile isPySpace).dropWhile Char.isDigit).head? == some '.') = true
    swap
    · rw [if_neg hb1] at h
      exact absurd h (by simp)
    rw [if_pos hb1] at h
    obtain ⟨t2, hr1⟩ : ∃ t2, (l.dropWhile isPySpace).dropWhile Char.isDigit = '.' :: t2 := by
      cases hc : (l.dropWhile isPySpace).dropWhile Char.isDigit with
      | nil => rw [hc] at hb1; exact absurd hb1 (by simp)
      | cons c t =>
        rw [hc] at hb1
        simp only [List.head?_cons, beq_iff_eq, Option.some.injEq] at hb1
        exact ⟨t, by rw [hb1]⟩
    rw [hr1] at h
    rw [List.tail_cons] at h
    by_cases h2 : (t2.takeWhile Char.isDigit).isEmpty
    · rw [if_pos h2] at h
      exact absurd h (by simp)
    rw [if_neg h2] at h
    by_cases hb2 : ((t2.dropWhile Char.isDigit).head? == some '.') = true
    swap
    · rw [if_neg hb2] at h
      exact absurd h (by simp)
    rw [if_pos hb2] at h
    obtain ⟨t3, hr2⟩ : ∃ t3, t2.dropWhile Char.isDigit = '.' :: t3 := by
      cases hc : t2.dropWhile Char.isDigit with
      | nil => rw [hc] at hb2; exact absurd hb2 (by simp)
      | cons c t =>
        rw [hc] at hb2
        simp only [List.head?_cons, beq_iff_eq, Option.some.injEq] at hb2
        exact ⟨t, by rw [hb2]⟩
    rw [hr2] at h
    rw [List.tail_cons] at h
    by_cases h3 : (t3.takeWhile Char.isDigit).isEmpty
    · rw [if_pos h3] at h
      exact absurd h (by simp)
    rw [if_neg h3] at h
    by_cases h4 : (t3.dropWhile Char.isDigit).all isPySpace
    swap
    · rw [if_neg h4] at h
      exact absurd h (by simp)
    rw [if_pos h4] at h
    simp only [Option.some.injEq, Prod.mk.injEq] at h
    obtain ⟨hx, hy, hz⟩ := h
    refine ⟨l.takeWhile isPySpace,
      (l.dropWhile isPySpace).takeWhile Char.isDigit,
      t2.takeWhile Char.isDigit,
      t3.takeWhile Char.isDigit,
      t3.dropWhile Char.isDigit,
      by simpa using h1, by simpa using h2, by simpa using h3,
      List.all_takeWhile, h4,
      List.all_takeWhile, List.all_takeWhile, List.all_takeWhile,
      ?_, hx.symm, hy.symm, hz.symm⟩
    have e1 : l.dropWhile isPySpace =
        (l.dropWhile isPySpace).takeWhile Char.isDigit ++ ('.' :: t2) := by
      conv_lhs => rw [← List.takeWhile_append_dropWhile
        (p := Char.isDigit) (l := l.dropWhile isPySpace)]
      rw [hr1]
    have e2 : t2 = t2.takeWhile Char.isDigit ++ ('.' :: t3) := by
      conv_lhs => rw [← List.takeWhile_append_dropWhile (p := Char.isDigit) (l := t2)]
      rw [hr2]
    have e3 : t3 = t3.takeWhile Char.isDigit ++ t3.dropWhile Char.isDigit :=
      (List.takeWhile_append_dropWhile _ _).symm
    conv_lhs => rw [← List.takeWhile_append_dropWhile (p := isPySpace) (l := l), e1]
    conv_lhs => rw [e2]
    conv_lhs => rw [e3]
    simp [List.append_assoc]
  · rintro ⟨w1, d1, d2, d3, w2, hn1, hn2, hn3, hw1, hw2, hd1, hd2, hd3, rfl, rfl, rfl, rfl⟩
    obtain ⟨c1, t1, rfl⟩ : ∃ c t, d1 = c :: t := by
      cases d1 with
      | nil => exact absurd rfl hn1
      | cons c t => exact ⟨c, t, rfl⟩
    obtain ⟨c2, t2x, rfl⟩ : ∃ c t, d2 = c :: t := by
      cases d2 with
      | nil => exact absurd rfl hn2
      | cons c t => exact ⟨c, t, rfl⟩
    obtain ⟨c3, t3x, rfl⟩ : ∃ c t, d3 = c :: t := by
      cases d3 with
      | nil => exact absurd rfl hn3
      | cons c t => exact ⟨c, t, rfl⟩
    have hc1d : c1.isDigit = true := by
      have := (List.all_eq_true.mp hd1) c1 (by simp)
      simpa using this
    rw [parseVer]
    have hstep1 : (w1 ++ ((c1 :: t1) ++ '.' :: ((c2 :: t2x) ++ '.' :: (c3 :: t3x))) ++
        w2).dropWhile isPySpace =
        (c1 :: t1) ++ '.' :: ((c2 :: t2x) ++ '.' :: ((c3 :: t3x) ++ w2)) := by
      rw [List.append_assoc, dropWhile_append_all hw1]
      simp only [List.cons_append, List.append_assoc]
      rw [dropWhile_cons_head (isDigit_not_space hc1d)]
    rw [hstep1]
    have htk1 : ((c1 :: t1) ++ '.' :: ((c2 :: t2x) ++ '.' :: ((c3 :: t3x) ++
        w2))).takeWhile Char.isDigit = c1 :: t1 :=
      takeWhile_append_head hd1 rfl (by decide)
    have hdr1 : ((c1 :: t1) ++ '.' :: ((c2 :: t2x) ++ '.' :: ((c3 :: t3x) ++
        w2))).dropWhile Char.isDigit =
        '.' :: ((c2 :: t2x) ++ '.' :: ((c3 :: t3x) ++ w2)) := by
      rw [dropWhile_append_head rfl (by decide), dropWhile_of_all hd1]
      rfl
    rw [htk1, hdr1]
    rw [if_neg (by simp)]
    rw [if_pos (by simp)]
    rw [List.tail_cons]
    dsimp only []
    have htk2 : ((c2 :: t2x) ++ '.' :: ((c3 :: t3x) ++ w2)).takeWhile Char.isDigit =
        c2 :: t2x :=
      takeWhile_append_head hd2 rfl (by decide)
    have hdr2 : ((c2 :: t2x) ++ '.' :: ((c3 :: t3x) ++ w2)).dropWhile Char.isDigit =
        '.' :: ((c3 :: t3x) ++ w2) := by
      rw [dropWhile_append_head rfl (by decide), dropWhile_of_all hd2]
      rfl
    rw [htk2, hdr2]
    rw [if_neg (by simp)]
    rw [if_pos (by simp)]
    rw [List.tail_cons]
    have htk3 : ((c3 :: t3x) ++ w2).takeWhile Char.isDigit = c3 :: t3x := by
      cases hw : w2 with
      | nil => rw [List.append_nil]; exact takeWhile_of_all hd3
      | cons cw tw =>
        have hcw : isPySpace cw = true := by
          have := (List.all_eq_true.mp hw2) cw (by rw [hw]; simp)
          simpa using this
        exact takeWhile_append_head hd3 rfl (isSpace_not_digit hcw)
    have hdr3 : ((c3 :: t3x) ++ w2).dropWhile Char.isDigit = w2 := by
      cases hw : w2 with
      | nil => rw [List.append_nil]; exact dropWhile_of_all hd3
      | cons cw tw =>
        have hcw : isPySpace cw = true := by
          have := (List.all_eq_true.mp hw2) cw (by rw [hw]; simp)
          simpa using this
        rw [dropWhile_append_head rfl (isSpace_not_digit hcw), dropWhile_of_all hd3]
        rfl
    rw [htk3, hdr3]
    rw [if_neg (by simp), if_pos hw2]

/-! ## Counting guard lines through final assembly -/

theorem isGuardL_of_ws {x : String} (h : isWsLine x = true) : isGuardL x = false := by
  rw [isGuardL]
  have h0 : pyStripL x.data = [] := by
    rw [pyStripL, pyLtrim, dropWhile_of_all (by rwa [isWsLine] at h)]
    rfl
  rw [h0]
  rfl

theorem countP_guard_rstrip (L : List String) :
    List.countP isGuardL (rstripLines L) = List.countP isGuardL L := by
  rw [rstripLines]
  cases hd : L.reverse.dropWhile isWsLine with
  | nil =>
    have hall : ∀ x ∈ L.reverse, isWsLine x = true := List.dropWhile_eq_nil_iff.mp hd
    have hz : List.countP isGuardL L = 0 := by
      rw [List.countP_eq_zero]
      intro a ha
      simp only [Bool.not_eq_true]
      exact isGuardL_of_ws (hall a (by simpa using ha))
    rw [hz]
    rfl
  | cons t pre =>
    have hsplit : L.reverse = L.reverse.takeWhile isWsLine ++ (t :: pre) := by
      conv_lhs => rw [← List.takeWhile_append_dropWhile (p := isWsLine) (l := L.reverse)]
      rw [hd]
    have hcount : List.countP isGuardL L = List.countP isGuardL (t :: pre) := by
      rw [← (L.reverse_perm).countP_eq isGuardL]
      conv_lhs => rw [hsplit]
      rw [List.countP_append]
      have hz : List.countP isGuardL (L.reverse.takeWhile isWsLine) = 0 := by
        rw [List.countP_eq_zero]
        intro a ha
        simp only [Bool.not_eq_true]
        exact isGuardL_of_ws ((List.all_eq_true.mp List.all_takeWhile) a ha)
      rw [hz, Nat.zero_add]
    rw [hcount, ((pyRstripS t :: pre).reverse_perm).countP_eq isGuardL,
      List.countP_cons, List.countP_cons, isGuardL_rstrip]

theorem version_text_noGuard {v : String} {vlines : List String}
    (h : version_text v = .ok vlines) : ∀ x ∈ vlines, isGuardL x = false := by
  rw [version_text] at h
  cases hvt : version_triplet v with
  | error e =>
    rw [hvt] at h
    exact absurd h (by simp)
  | ok t =>
    obtain ⟨x, y, z⟩ := t
    rw [hvt] at h
    dsimp only [] at h
    simp only [Except.ok.injEq] at h
    subst h
    intro w hw
    simp only [List.mem_cons, List.mem_singleton] at hw
    rcases hw with rfl | rfl | rfl | rfl | (rfl | hw0)
    · exact isGuardL_marker "#define BYTEWEAVE_VERSION_MAJOR " _ '#' 'd'
        "efine BYTEWEAVE_VERSION_MAJOR ".data rfl (by decide) (by decide)
    · exact isGuardL_marker "#define BYTEWEAVE_VERSION_MINOR " _ '#' 'd'
        "efine BYTEWEAVE_VERSION_MINOR ".data rfl (by decide) (by decide)
    · exact isGuardL_marker "#define BYTEWEAVE_VERSION_PATCH " _ '#' 'd'
        "efine BYTEWEAVE_VERSION_PATCH ".data rfl (by decide) (by decide)
    · exact isGuardL_marker "#define BYTEWEAVE_VERSION_STRING \"" _ '#' 'd'
        "efine BYTEWEAVE_VERSION_STRING \"".data rfl (by decide) (by decide)
    · exact isGuardL_empty
    · exact absurd hw0 (by simp)

/-! ## Main-body inversion -/

theorem mainBody_ok_inv {fs : Fs} {a : Args} {pth : String} {out : List String}
    (h : mainBody fs a = .ok (pth, out)) :
    pth = a.out ∧ ∃ bodyLines s r,
      inline_file ⟨fs, a.repo_root, a.generated⟩ a.entry [] = .ok (bodyLines, s, r) ∧
      ((needs_version_flag fs a bodyLines = true ∧ ∃ vlines,
          version_text a.version = .ok vlines ∧
          out = rstripLines (build_preamble ++
            ("// synthesized: byteweave/version.hpp" :: vlines) ++ lineify bodyLines)) ∨
        (needs_version_flag fs a bodyLines = false ∧
          out = rstripLines (build_preamble ++ lineify bodyLines))) := by
  rw [mainBody] at h
  cases hin : inline_file ⟨fs, a.repo_root, a.generated⟩ a.entry [] with
  | error e =>
    rw [hin] at h
    exact absurd h (by simp)
  | ok res =>
    obtain ⟨bodyLines, s, r⟩ := res
    rw [hin] at h
    dsimp only [] at h
    by_cases hnv : needs_version_flag fs a bodyLines
    · rw [if_pos hnv] at h
      cases hvt : version_text a.version with
      | error e =>
        rw [hvt] at h
        exact absurd h (by simp)
      | ok vlines =>
        rw [hvt] at h
        dsimp only [] at h
        simp only [Except.ok.injEq, Prod.mk.injEq] at h
        obtain ⟨hp, ho⟩ := h
        exact ⟨hp.symm, bodyLines, s, r, rfl,
          Or.inl ⟨hnv, vlines, rfl, ho.symm⟩⟩
    · rw [if_neg hnv] at h
      simp only [Except.ok.injEq, Prod.mk.injEq] at h
      obtain ⟨hp, ho⟩ := h
      exact ⟨hp.symm, bodyLines, s, r, rfl,
        Or.inr ⟨by simpa using hnv, ho.symm⟩⟩

/-! ## Where traversal targets come from -/

theorem string_data_inj {s t : String} (h : s.data = t.data) : s = t := by
  cases s
  cases t
  cases h
  rfl

theorem resolve_target_shape {ctx : Ctx} {frag target : String}
    (h : resolve_local ctx frag = .ok (some target)) (hs : target ≠ SYNTH_PATH) :
    OkTarget ctx target := by
  rw [resolve_local] at h
  by_cases h1 : frag = EXPORT_HEADER
  · rw [if_pos h1] at h
    exact absurd h (by simp)
  · rw [if_neg h1] at h
    by_cases h2 : frag = VERSION_HEADER
    · rw [if_pos h2] at h
      cases hg : ctx.generated with
      | some g =>
        rw [hg] at h
        dsimp only [] at h
        by_cases hex : ctx.fs.pathExists (g ++ "/" ++ frag)
        · rw [if_pos hex] at h
          simp only [Except.ok.injEq, Option.some.injEq] at h
          exact Or.inr ⟨g, hg, by rw [← h, h2]⟩
        · rw [if_neg hex] at h
          exact absurd h (by simp)
      | none =>
        rw [hg] at h
        dsimp only [] at h
        simp only [Except.ok.injEq, Option.some.injEq] at h
        exact absurd h.symm hs
    · rw [if_neg h2] at h
      by_cases hex : ctx.fs.pathExists (ctx.repo_root ++ "/include/" ++ frag)
      · rw [if_pos hex] at h
        simp only [Except.ok.injEq, Option.some.injEq] at h
        exact Or.inl ⟨frag, h1, h.symm⟩
      · rw [if_neg hex] at h
        exact absurd h (by simp)

theorem processLines_reads {ctx : Ctx} {rcall : String → List String → Except String IRes}
    (hrec : ∀ p s o s' r, rcall p s = .ok (o, s', r) →
      ∀ q ∈ r, q = p ∨ OkTarget ctx q) :
    ∀ (lines : List String) (seen o s' r : List String),
      processLines ctx rcall lines seen = .ok (o, s', r) →
      ∀ q ∈ r, OkTarget ctx q := by
  intro lines
  induction lines with
  | nil =>
    intro seen o s' r h
    rw [processLines] at h
    simp only [Except.ok.injEq, Prod.mk.injEq] at h
    obtain ⟨-, -, hr⟩ := h
    rw [← hr]
    simp
  | cons line rest ih =>
    intro seen o s' r h
    rcases processLines_cons_ok h with ⟨-, hnx⟩ | ⟨-, o₂, hnx, -⟩ |
      ⟨-, -, d, inc, target, sub, s1, r1, o₂, r2, -, -, -, hres, hsyn, hcall, hnx, -, hrfl⟩
    · exact ih _ _ _ _ hnx
    · exact ih _ _ _ _ hnx
    · subst hrfl
      intro q hq
      rcases List.mem_append.mp hq with hq1 | hq2
      · rcases hrec _ _ _ _ _ hcall q hq1 with rfl | hok
        · exact resolve_target_shape hres hsyn
        · exact hok
      · exact ih _ _ _ _ hnx q hq2

theorem inlineF_reads (ctx : Ctx) :
    ∀ (fuel : Nat) (p : String) (seen o s' r : List String),
      inlineF ctx fuel p seen = .ok (o, s', r) →
      ∀ q ∈ r, q = p ∨ OkTarget ctx q := by
  intro fuel
  induction fuel with
  | zero =>
    intro p seen o s' r h
    rw [inlineF] at h
    exact absurd h (by simp)
  | succ f ih =>
    intro p seen o s' r h
    rw [inlineF] at h
    by_cases hmem : p ∈ seen
    · rw [if_pos hmem] at h
      simp only [Except.ok.injEq, Prod.mk.injEq] at h
      obtain ⟨-, -, hr⟩ := h
      rw [← hr]
      simp
    · rw [if_neg hmem] at h
      by_cases hsyn : p = SYNTH_PATH
      · rw [if_pos hsyn] at h
        simp only [Except.ok.injEq, Prod.mk.injEq] at h
        obtain ⟨-, -, hr⟩ := h
        rw [← hr]
        simp
      · rw [if_neg hsyn] at h
        cases hread : ctx.fs.read p with
        | none =>
          rw [hread] at h
          exact absurd h (by simp)
        | some text =>
          rw [hread] at h
          dsimp only [] at h
          cases hpl : processLines ctx (inlineF ctx f)
              (pySplitlines (normalize_newlines text)) (p :: seen) with
          | error e =>
            rw [hpl] at h
            exact absurd h (by simp)
          | ok res =>
            obtain ⟨o₁, s₁, r₁⟩ := res
            rw [hpl] at h
            dsimp only [] at h
            simp only [Except.ok.injEq, Prod.mk.injEq] at h
            obtain ⟨-, -, hr⟩ := h
            rw [← hr]
            intro q hq
            rcases List.mem_cons.mp hq with rfl | hq'
            · exact Or.inl rfl
            · exact Or.inr (processLines_reads
                (fun p s o s' r hc => ih p s o s' r hc) _ _ _ _ _ hpl q hq')

theorem ne_of_rev_idx {s t : String} {i : Nat} {a b : Char}
    (ha : s.data.reverse[i]? = some a) (hb : t.data.reverse[i]? = some b)
    (hab : a ≠ b) : s ≠ t := by
  intro he
  subst he
  rw [ha] at hb
  cases hb
  exact hab rfl

theorem okTarget_ne_export {ctx : Ctx} {q : String} (h : OkTarget ctx q) :
    q ≠ export_path ctx.repo_root := by
  rcases h with ⟨frag, hne, rfl⟩ | ⟨g, hg, rfl⟩
  · rw [export_path]
    intro he
    apply hne
    have hd := congrArg String.data he
    rw [show (ctx.repo_root ++ "/include/" ++ frag).data =
      (ctx.repo_root ++ "/include/").data ++ frag.data from rfl,
      show (ctx.repo_root ++ "/include/" ++ EXPORT_HEADER).data =
      (ctx.repo_root ++ "/include/").data ++ EXPORT_HEADER.data from rfl] at hd
    exact string_data_inj (List.append_cancel_left hd)
  · refine ne_of_rev_idx (i := 4) (a := 'n') (b := 't') ?_ ?_ (by decide)
    · rw [show (g ++ "/" ++ VERSION_HEADER).data =
        (g ++ "/").data ++ VERSION_HEADER.data from rfl, List.reverse_append,
        List.getElem?_append, if_pos (by decide)]
      decide
    · rw [export_path, show (ctx.repo_root ++ "/include/" ++ EXPORT_HEADER).data =
        (ctx.repo_root ++ "/include/").data ++ EXPORT_HEADER.data from rfl,
        List.reverse_append, List.getElem?_append, if_pos (by decide)]
      decide

/-! ## Parsing constructed include lines -/

theorem dropWhile_cons_many {p : Char → Bool} {c : Char} {t : List Char}
    (hc : p c = false) (l : List Char) (h : l = c :: t) : l.dropWhile p = l := by
  rw [h]
  exact dropWhile_cons_head hc

theorem parse_include_delim (frag : String) (d : Char) (hd : d = '<' ∨ d = '"')
    (h1 : frag.data ≠ []) (h2 : ∀ c ∈ frag.data, ¬(c = '"' ∨ c = '>')) (cl : Char)
    (hcl : cl = '"' ∨ cl = '>') :
    parse_include ("#include " ++ (String.mk [d] ++ (frag ++ String.mk [cl]))) =
      some (d, String.mk (pyStripL frag.data)) := by
  rw [parse_include, parseIncL]
  have hdata : ("#include " ++ (String.mk [d] ++ (frag ++ String.mk [cl]))).data =
      '#' :: ("include ".data ++ (d :: (frag.data ++ [cl]))) := rfl
  rw [hdata]
  rw [dropWhile_cons_head (by decide)]
  rw [List.head?_cons]
  rw [if_pos (by simp)]
  rw [List.tail_cons]
  have hi : ("include ".data ++ (d :: (frag.data ++ [cl]))).dropWhile isPySpace =
      "include ".data ++ (d :: (frag.data ++ [cl])) := by
    rw [show ("include ".data ++ (d :: (frag.data ++ [cl]))) =
      'i' :: ("nclude ".data ++ (d :: (frag.data ++ [cl]))) from rfl]
    exact dropWhile_cons_head (by decide)
  rw [hi]
  rw [if_pos (by
    rw [leadsWith_iff]
    exact ⟨' ' :: (d :: (frag.data ++ [cl])), rfl⟩)]
  have hdrop : ("include ".data ++ (d :: (frag.data ++ [cl]))).drop 7 =
      ' ' :: (d :: (frag.data ++ [cl])) := rfl
  rw [hdrop]
  have hdsp : isPySpace d = false := by
    rcases hd with rfl | rfl <;> decide
  rw [show (' ' :: (d :: (frag.data ++ [cl]))).dropWhile isPySpace =
      (d :: (frag.data ++ [cl])).dropWhile isPySpace by
    rw [List.dropWhile_cons, if_pos (by decide)]]
  rw [dropWhile_cons_head hdsp]
  dsimp only []
  rw [List.head?_cons]
  dsimp only []
  rw [if_pos (by rcases hd with rfl | rfl <;> decide)]
  rw [List.tail_cons]
  have hpred : ∀ c ∈ frag.data, (fun c => !(c == '"' || c == '>')) c = true := by
    intro c hc
    have hcc := h2 c hc
    rw [not_or] at hcc
    simp [hcc.1, hcc.2]
  have hclf : (fun c => !(c == '"' || c == '>')) cl = false := by
    rcases hcl with rfl | rfl <;> decide
  rw [takeWhile_append_head (by rwa [List.all_eq_true]) rfl hclf]
  rw [dropWhile_append_head rfl hclf]
  rw [if_neg (by simp)]
  rw [if_neg (by simpa using h1)]

theorem parse_include_pass {ctx : Ctx} {rcall : String → List String → Except String IRes}
    {line : String} {d : Char} {inc : String}
    (hp : parse_include line = some (d, inc)) (hloc : is_local_byteweave inc = false)
    (rest seen : List String) :
    processLines ctx rcall (line :: rest) seen =
      match processLines ctx rcall rest seen with
      | .error e => .error e
      | .ok (o, s, r) => .ok (line :: o, s, r) := by
  have hg : isGuardL line = false := by
    by_contra hgx
    rw [Bool.not_eq_false] at hgx
    rw [parse_include_of_guard hgx] at hp
    exact absurd hp (by simp)
  rw [processLines, if_neg (by simp [hg]), hp]
  dsimp only []
  rw [show (!is_local_byteweave inc) = true by simp [hloc]]
  rw [if_pos rfl]

theorem parse_include_only_frag {ctx : Ctx}
    {rcall : String → List String → Except String IRes}
    {line₁ line₂ : String} {d₁ d₂ : Char} {inc : String}
    (hp₁ : parse_include line₁ = some (d₁, inc)) (hp₂ : parse_include line₂ = some (d₂, inc))
    (hloc : is_local_byteweave inc = true) (rest seen : List String) :
    processLines ctx rcall (line₁ :: rest) seen =
      processLines ctx rcall (line₂ :: rest) seen := by
  have hg₁ : isGuardL line₁ = false := by
    by_contra hgx
    rw [Bool.not_eq_false] at hgx
    rw [parse_include_of_guard hgx] at hp₁
    exact absurd hp₁ (by simp)
  have hg₂ : isGuardL line₂ = false := by
    by_contra hgx
    rw [Bool.not_eq_false] at hgx
    rw [parse_include_of_guard hgx] at hp₂
    exact absurd hp₂ (by simp)
  rw [processLines, if_neg (by simp [hg₁]), hp₁]
  rw [processLines, if_neg (by simp [hg₂]), hp₂]
  dsimp only []
  rw [show (!is_local_byteweave inc) = false by simp [hloc]]
  conv_lhs => rw [if_neg (show ¬(false = true) by simp)]
  conv_rhs => rw [if_neg (show ¬(false = true) by simp)]

/-! ## The already-visited step -/

theorem inlineF_visited {ctx : Ctx} {f : Nat} {p : String} {seen : List String}
    (h : p ∈ seen) : inlineF ctx (f + 1) p seen = .ok ([], seen, []) := by
  rw [inlineF, if_pos h]

theorem processLines_visited_step {ctx : Ctx}
    {rcall : String → List String → Except String IRes}
    {line : String} {rest seen : List String} {d : Char} {inc target : String}
    (hg : isGuardL line = false) (hp : parse_include line = some (d, inc))
    (hloc : is_local_byteweave inc = true) (hexp : inc ≠ EXPORT_HEADER)
    (hres : resolve_local ctx inc = .ok (some target)) (hsyn : target ≠ SYNTH_PATH)
    (hvis : rcall target seen = .ok ([], seen, [])) :
    processLines ctx rcall (line :: rest) seen =
      match processLines ctx rcall rest seen with
      | .error e => .error e
      | .ok (o, s2, r2) =>
        .ok (("// begin: " ++ inc) :: "" :: ("// end: " ++ inc) :: o, s2, r2) := by
  rw [processLines, if_neg (by simp [hg]), hp]
  dsimp only []
  rw [show (!is_local_byteweave inc) = false by simp [hloc]]
  rw [if_neg (by simp), if_neg hexp, hres]
  dsimp only []
  rw [if_neg hsyn, hvis]
  dsimp only []
  cases processLines ctx rcall rest seen with
  | error e => rfl
  | ok res =>
    obtain ⟨o, s2, r2⟩ := res
    dsimp only []
    rw [show lineify [] = [""] from rfl]
    rfl

/-! ## Top-level orchestration -/

theorem mainRun_ok_inv {fs : Fs} {a : Args} {pth : String} {out : List String}
    (h : mainRun fs a = .ok (pth, out)) :
    mainBody fs a = .ok (pth, out) ∧ fs.pathExists a.entry = true ∧
      (∀ g, a.generated = some g → fs.pathExists g = true) := by
  rw [mainRun] at h
  by_cases he : fs.pathExists a.entry
  · rw [show (!fs.pathExists a.entry) = false by simp [he], if_neg (by simp)] at h
    cases hg : a.generated with
    | some g =>
      rw [hg] at h
      dsimp only [] at h
      by_cases hx : fs.pathExists g
      · rw [show (!fs.pathExists g) = false by simp [hx], if_neg (by simp)] at h
        exact ⟨h, he, fun g' hg' => by cases hg'; exact hx⟩
      · rw [show (!fs.pathExists g) = true by simp [hx], if_pos rfl] at h
        exact absurd h (by simp)
    | none =>
      rw [hg] at h
      exact ⟨h, he, fun g' hg' => by cases hg'⟩
  · rw [show (!fs.pathExists a.entry) = true by simp [he], if_pos rfl] at h
    exact absurd h (by simp)

theorem mem_rstripLines {x : String} {L : List String} (hx : x ∈ L)
    (hr : pyRstripS x = x) (hw : isWsLine x = false) : x ∈ rstripLines L := by
  rw [rstripLines]
  cases hd : L.reverse.dropWhile isWsLine with
  | nil =>
    have hall := List.dropWhile_eq_nil_iff.mp hd
    have := hall x (by simpa using hx)
    rw [this] at hw
    exact absurd hw (by simp)
  | cons t pre =>
    have hxrev : x ∈ L.reverse := by simpa using hx
    have hsplit : L.reverse = L.reverse.takeWhile isWsLine ++ (t :: pre) := by
      conv_lhs => rw [← List.takeWhile_append_dropWhile (p := isWsLine) (l := L.reverse)]
      rw [hd]
    rw [hsplit] at hxrev
    rcases List.mem_append.mp hxrev with h1 | h2
    · have := (List.all_eq_true.mp List.all_takeWhile) x h1
      rw [this] at hw
      exact absurd hw (by simp)
    · rcases List.mem_cons.mp h2 with rfl | h3
      · rw [List.mem_reverse, hr]
        exact List.mem_cons_self _ _
      · rw [List.mem_reverse]
        exact List.mem_cons_of_mem _ h3

/-! ## Claim theorems -/

/-- C1: over any include graph reachable from the entry file, a
successful flattening reads each concrete file at most once (the
first-visit list is duplicate-free, so each file's content is spliced
only at its first pre-order depth-first encounter), and every
pass-through line of every read file — every line that is neither an
include guard nor a library-namespaced include, foreign includes kept
verbatim — appears in the output as a subsequence, i.e. in the same
relative order as in that file, with nothing reordered. -/
theorem claim_C1 (ctx : Ctx) (entry : String) (o s' r : List String)
    (h : inline_file ctx entry [] = .ok (o, s', r)) :
    r.Nodup ∧ ∀ q ∈ r, List.Sublist (keptLines (fileLines ctx.fs q)) o := by
  rw [inline_file] at h
  exact ⟨(inlineF_seenInv ctx _ _ _ _ _ _ h).2.2, inlineF_sublist ctx _ _ _ _ _ _ h⟩

/-- C1 witness: a concrete two-file graph evaluated end to end. -/
theorem claim_C1_witness :
    (["E", "R/include/byteweave/a.hpp"] : List String).Nodup ∧
      ∀ q ∈ (["E", "R/include/byteweave/a.hpp"] : List String),
        List.Sublist
          (keptLines (fileLines
            (Ctx.mk ⟨[("E", "int x;\n#include \"byteweave/a.hpp\"\n"),
              ("R/include/byteweave/a.hpp", "int a;\n")], []⟩ "R" none).fs q))
          ["int x;", "// begin: byteweave/a.hpp", "int a;", "// end: byteweave/a.hpp"] :=
  claim_C1 (Ctx.mk ⟨[("E", "int x;\n#include \"byteweave/a.hpp\"\n"),
      ("R/include/byteweave/a.hpp", "int a;\n")], []⟩ "R" none) "E"
    ["int x;", "// begin: byteweave/a.hpp", "int a;", "// end: byteweave/a.hpp"]
    ["R/include/byteweave/a.hpp", "E"] ["E", "R/include/byteweave/a.hpp"] rfl

/-- C2 counterexample: an entry file that includes the same header
twice.  The second (already-visited) include does not vanish: it
contributes a begin/end marker pair (with an empty line between),
so the begin marker occurs twice in the output even though the file
content appears once — refuting "that include contributes no output
lines at all". -/
theorem claim_C2_counterexample :
    inline_file
        (Ctx.mk ⟨[("E", "#include \"byteweave/a.hpp\"\n#include \"byteweave/a.hpp\"\n"),
          ("R/include/byteweave/a.hpp", "int a;\n")], []⟩ "R" none) "E" [] =
      .ok (["// begin: byteweave/a.hpp", "int a;", "// end: byteweave/a.hpp",
            "// begin: byteweave/a.hpp", "", "// end: byteweave/a.hpp"],
           ["R/include/byteweave/a.hpp", "E"], ["E", "R/include/byteweave/a.hpp"]) ∧
    List.countP (fun l => l == "// begin: byteweave/a.hpp")
      ["// begin: byteweave/a.hpp", "int a;", "// end: byteweave/a.hpp",
       "// begin: byteweave/a.hpp", "", "// end: byteweave/a.hpp"] = 2 :=
  ⟨rfl, by decide⟩

/-- C2 amended: for a library-namespaced include whose resolved path
is already visited, the inliner emits no content from the file and
leaves the visited set unchanged, but it does emit the begin/end
traceability markers with one empty line between them (the
`"\n".join` image of the empty recursive expansion). -/
theorem claim_C2_amended {ctx : Ctx} {f : Nat} {line : String} {rest seen : List String}
    {d : Char} {inc target : String}
    (hg : isGuardL line = false) (hp : parse_include line = some (d, inc))
    (hloc : is_local_byteweave inc = true) (hexp : inc ≠ EXPORT_HEADER)
    (hres : resolve_local ctx inc = .ok (some target)) (hsyn : target ≠ SYNTH_PATH)
    (hvis : target ∈ seen) :
    processLines ctx (inlineF ctx (f + 1)) (line :: rest) seen =
      match processLines ctx (inlineF ctx (f + 1)) rest seen with
      | .error e => .error e
      | .ok (o, s2, r2) =>
        .ok (("// begin: " ++ inc) :: "" :: ("// end: " ++ inc) :: o, s2, r2) :=
  processLines_visited_step hg hp hloc hexp hres hsyn (inlineF_visited hvis)

/-- C2 witness: the amended step evaluated on a concrete visited
include. -/
theorem claim_C2_witness :
    processLines
        (Ctx.mk ⟨[("E", "int x;\n#include \"byteweave/a.hpp\"\n"),
          ("R/include/byteweave/a.hpp", "int a;\n")], []⟩ "R" none)
        (inlineF (Ctx.mk ⟨[("E", "int x;\n#include \"byteweave/a.hpp\"\n"),
          ("R/include/byteweave/a.hpp", "int a;\n")], []⟩ "R" none) 1)
        ["#include \"byteweave/a.hpp\""] ["R/include/byteweave/a.hpp"] =
      .ok (["// begin: byteweave/a.hpp", "", "// end: byteweave/a.hpp"],
           ["R/include/byteweave/a.hpp"], []) := by
  have hstep := @claim_C2_amended
    (Ctx.mk ⟨[("E", "int x;\n#include \"byteweave/a.hpp\"\n"),
      ("R/include/byteweave/a.hpp", "int a;\n")], []⟩ "R" none)
    0 "#include \"byteweave/a.hpp\"" [] ["R/include/byteweave/a.hpp"] '"'
    "byteweave/a.hpp" "R/include/byteweave/a.hpp"
    (by decide) rfl (by decide) (by decide) rfl (by decide) (by decide)
  rw [hstep]
  rfl

/-- C3: whenever the orchestrator succeeds, the assembled output
contains exactly one `#pragma once` include-guard line — the one from
the preamble; no guard from any inlined file survives (for input
trees whose guards are `#pragma once` lines, guard lines are exactly
the lines this predicate recognizes). -/
theorem claim_C3 {fs : Fs} {a : Args} {pth : String} {out : List String}
    (h : mainRun fs a = .ok (pth, out)) : List.countP isGuardL out = 1 := by
  obtain ⟨hb, -, -⟩ := mainRun_ok_inv h
  obtain ⟨-, bodyLines, s, r, hin, hcase⟩ := mainBody_ok_inv hb
  have hbody0 : List.countP isGuardL (lineify bodyLines) = 0 := by
    rw [List.countP_eq_zero]
    intro x hx
    simp only [Bool.not_eq_true]
    rcases mem_lineify hx with hxs | rfl
    · rw [inline_file] at hin
      exact inlineF_noGuard _ _ _ _ _ _ _ hin x hxs
    · exact isGuardL_empty
  have hpre1 : List.countP isGuardL build_preamble = 1 := by decide
  rcases hcase with ⟨-, vlines, hvt, rfl⟩ | ⟨-, rfl⟩
  · rw [countP_guard_rstrip, List.countP_append, List.countP_append]
    have h2 : List.countP isGuardL
        ("// synthesized: byteweave/version.hpp" :: vlines) = 0 := by
      rw [List.countP_eq_zero]
      intro x hx
      simp only [Bool.not_eq_true]
      rcases List.mem_cons.mp hx with rfl | hv
      · decide
      · exact version_text_noGuard hvt x hv
    rw [hpre1, h2, hbody0]
  · rw [countP_guard_rstrip, List.countP_append, hpre1, hbody0]

/-- C3 witness: a concrete run with two `#pragma once` source guards
and a synthesized version block; exactly one guard survives. -/
theorem claim_C3_witness :
    List.countP isGuardL
      ["#pragma once", "#ifndef BYTEWEAVE_AMALGAMATED",
       "#  define BYTEWEAVE_AMALGAMATED 1", "#endif", "", "#ifndef BW_API",
       "#  define BW_API", "#endif", "", "// synthesized: byteweave/version.hpp",
       "#define BYTEWEAVE_VERSION_MAJOR 1", "#define BYTEWEAVE_VERSION_MINOR 2",
       "#define BYTEWEAVE_VERSION_PATCH 3", "#define BYTEWEAVE_VERSION_STRING \"1.2.3\"",
       "", "int a;", "// begin: byteweave/core.hpp", "int b;",
       "// end: byteweave/core.hpp", "#include <vector>"] = 1 :=
  @claim_C3 ⟨[("R/include/byteweave/bw.hpp",
      "#pragma once\nint a;\n#include \"byteweave/core.hpp\"\n#include <vector>\n"),
      ("R/include/byteweave/core.hpp", "#pragma once\nint b;\n")], []⟩
    ⟨"R/include/byteweave/bw.hpp", "dist/out.hpp", "1.2.3", none, "R"⟩
    "dist/out.hpp" _ rfl

theorem version_triplet_ok_iff {v : String} {t : Nat × Nat × Nat} :
    version_triplet v = .ok t ↔ parseVer v.data = some t := by
  rw [version_triplet]
  cases hp : parseVer v.data with
  | some u => simp
  | none => simp

/-- C4 counterexample: the string " 1.2.3" (leading whitespace)
deviates from the exact X.Y.Z shape, yet validation accepts it and
returns (1, 2, 3) — refuting "succeeds exactly when the string is
exactly three non-negative integers separated by dots". -/
theorem claim_C4_counterexample :
    version_triplet " 1.2.3" = .ok (1, 2, 3) ∧ ¬ VersionShape " 1.2.3".data := by
  refine ⟨rfl, ?_⟩
  rintro ⟨d1, d2, d3, hn1, -, -, hd1, -, -, heq⟩
  obtain ⟨c1, t1, rfl⟩ : ∃ c t, d1 = c :: t := by
    cases d1 with
    | nil => exact absurd rfl hn1
    | cons c t => exact ⟨c, t, rfl⟩
  have hc : c1.isDigit = true := by
    have := (List.all_eq_true.mp hd1) c1 (by simp)
    simpa using this
  have hh := congrArg List.head? heq
  rw [show (" 1.2.3".data).head? = some ' ' from rfl] at hh
  rw [show ((c1 :: t1) ++ '.' :: (d2 ++ '.' :: d3)).head? = some c1 from rfl] at hh
  have := Option.some.inj hh
  rw [← this] at hc
  exact absurd hc (by decide)

/-- C4 amended: version validation succeeds exactly when the string
is three nonempty dot-separated digit runs surrounded by optional
(ASCII) whitespace — the regex anchors tolerate padding, so bare
X.Y.Z as well as padded forms are accepted, while any other deviation
(pre-release or build suffixes included) fails; on success the parsed
triple is returned and `version_text` emits the four macro
definitions. -/
theorem claim_C4_amended :
    (∀ (v : String) (x y z : Nat),
      version_triplet v = .ok (x, y, z) ↔
        ∃ w1 w2 d1 d2 d3 : List Char,
          w1.all isPySpace ∧ w2.all isPySpace ∧
          d1 ≠ [] ∧ d2 ≠ [] ∧ d3 ≠ [] ∧
          d1.all Char.isDigit ∧ d2.all Char.isDigit ∧ d3.all Char.isDigit ∧
          VersionShape (d1 ++ '.' :: (d2 ++ '.' :: d3)) ∧
          v.data = w1 ++ (d1 ++ '.' :: (d2 ++ '.' :: d3)) ++ w2 ∧
          x = digitsVal d1 ∧ y = digitsVal d2 ∧ z = digitsVal d3) ∧
    (∀ (v : String) (x y z : Nat), version_triplet v = .ok (x, y, z) →
      version_text v = .ok
        ["#define BYTEWEAVE_VERSION_MAJOR " ++ toString x,
         "#define BYTEWEAVE_VERSION_MINOR " ++ toString y,
         "#define BYTEWEAVE_VERSION_PATCH " ++ toString z,
         "#define BYTEWEAVE_VERSION_STRING \"" ++
           (toString x ++ "." ++ toString y ++ "." ++ toString z ++ "\""),
         ""]) := by
  constructor
  · intro v x y z
    rw [version_triplet_ok_iff, parseVer_some_iff]
    constructor
    · rintro ⟨w1, d1, d2, d3, w2, hn1, hn2, hn3, hw1, hw2, hd1, hd2, hd3, heq, hx, hy, hz⟩
      exact ⟨w1, w2, d1, d2, d3, hw1, hw2, hn1, hn2, hn3, hd1, hd2, hd3,
        ⟨d1, d2, d3, hn1, hn2, hn3, hd1, hd2, hd3, rfl⟩, heq, hx, hy, hz⟩
    · rintro ⟨w1, w2, d1, d2, d3, hw1, hw2, hn1, hn2, hn3, hd1, hd2, hd3, -, heq, hx, hy, hz⟩
      exact ⟨w1, d1, d2, d3, w2, hn1, hn2, hn3, hw1, hw2, hd1, hd2, hd3, heq, hx, hy, hz⟩
  · intro v x y z h
    rw [version_text, h]

/-- C4 witness: validation and macro emission at "1.2.3". -/
theorem claim_C4_witness :
    version_text "1.2.3" = .ok
      ["#define BYTEWEAVE_VERSION_MAJOR 1", "#define BYTEWEAVE_VERSION_MINOR 2",
       "#define BYTEWEAVE_VERSION_PATCH 3",
       "#define BYTEWEAVE_VERSION_STRING \"1.2.3\"", ""] := by
  have hv := claim_C4_amended.2 "1.2.3" 1 2 3 rfl
  exact hv.trans (congrArg Except.ok (by decide))

/-- C5 counterexample: a generated directory whose version header
exists on disk but is never included by the entry file.  The body
does not textually contain the major-version macro and the generated
artifact was not inlined (the traversal read only the entry file),
yet the orchestrator omits the synthesized block: the output carries
no version macros at all — refuting "omits exactly when a generated
version artifact was actually inlined or the body already contains
the macro". -/
theorem claim_C5_counterexample :
    mainRun ⟨[("E5", "int q;\n"),
        ("G/byteweave/version.hpp", "#define BYTEWEAVE_VERSION_MAJOR 9\n")], ["G"]⟩
      ⟨"E5", "o", "1.2.3", some "G", "R"⟩ =
      .ok ("o", ["#pragma once", "#ifndef BYTEWEAVE_AMALGAMATED",
        "#  define BYTEWEAVE_AMALGAMATED 1", "#endif", "", "#ifndef BW_API",
        "#  define BW_API", "#endif", "", "int q;"]) ∧
    inline_file ⟨⟨[("E5", "int q;\n"),
        ("G/byteweave/version.hpp", "#define BYTEWEAVE_VERSION_MAJOR 9\n")], ["G"]⟩,
        "R", some "G"⟩ "E5" [] = .ok (["int q;"], ["E5"], ["E5"]) ∧
    ("G/byteweave/version.hpp" ∉ (["E5"] : List String)) ∧
    hasSubstr "BYTEWEAVE_VERSION_MAJOR".data (joinLines ["int q;"]).data = false ∧
    ("// synthesized: byteweave/version.hpp" ∉
      (["#pragma once", "#ifndef BYTEWEAVE_AMALGAMATED",
        "#  define BYTEWEAVE_AMALGAMATED 1", "#endif", "", "#ifndef BW_API",
        "#  define BW_API", "#endif", "", "int q;"] : List String)) :=
  ⟨rfl, rfl, by decide, by decide, by decide⟩

/-- Characterization of the `needs_version` decision: the flag is
false — the synthesized block is omitted — exactly when a supplied
generated directory holds the version artifact on disk, or the body
textually contains the major-version macro. -/
theorem needs_version_flag_false_iff (fs : Fs) (a : Args) (b : List String) :
    needs_version_flag fs a b = false ↔
      ((∃ g, a.generated = some g ∧
          fs.pathExists (g ++ "/" ++ VERSION_HEADER) = true) ∨
        hasSubstr "BYTEWEAVE_VERSION_MAJOR".data (joinLines b).data = true) := by
  rw [needs_version_flag]
  by_cases hsb : hasSubstr "BYTEWEAVE_VERSION_MAJOR".data (joinLines b).data
  · rw [if_pos hsb]
    simp [hsb]
  · rw [if_neg hsb]
    cases hg : a.generated with
    | some g =>
      dsimp only []
      constructor
      · intro hf
        refine Or.inl ⟨g, rfl, ?_⟩
        simpa using hf
      · rintro (⟨g', hg', hex⟩ | hsb')
        · cases hg'
          simp [hex]
        · exact absurd hsb' (by simp [hsb])
    | none => simp [hsb]

/-- C5 amended: on every successful run the synthesized version block
is omitted exactly when a supplied generated directory holds the
version artifact on disk (whether or not it was inlined) or the body
textually contains the major-version macro — when that condition
holds the output is preamble plus body with no synthesized block, and
when it fails the output carries the synthesized block; in particular
with version "1.2.3" and no generated directory the output contains
the four synthesized macros. -/
theorem claim_C5_amended {fs : Fs} {a : Args} {pth : String} {out : List String}
    (h : mainRun fs a = .ok (pth, out)) :
    ∃ b s r, inline_file ⟨fs, a.repo_root, a.generated⟩ a.entry [] = .ok (b, s, r) ∧
      (((∃ g, a.generated = some g ∧
            fs.pathExists (g ++ "/" ++ VERSION_HEADER) = true) ∨
          hasSubstr "BYTEWEAVE_VERSION_MAJOR".data (joinLines b).data = true) →
        out = rstripLines (build_preamble ++ lineify b)) ∧
      (¬ ((∃ g, a.generated = some g ∧
            fs.pathExists (g ++ "/" ++ VERSION_HEADER) = true) ∨
          hasSubstr "BYTEWEAVE_VERSION_MAJOR".data (joinLines b).data = true) →
        ∃ vlines, version_text a.version = .ok vlines ∧
          out = rstripLines (build_preamble ++
            ("// synthesized: byteweave/version.hpp" :: vlines) ++ lineify b)) ∧
      (a.generated = none → a.version = "1.2.3" →
        hasSubstr "BYTEWEAVE_VERSION_MAJOR".data (joinLines b).data = false →
        "#define BYTEWEAVE_VERSION_MAJOR 1" ∈ out ∧
        "#define BYTEWEAVE_VERSION_MINOR 2" ∈ out ∧
        "#define BYTEWEAVE_VERSION_PATCH 3" ∈ out ∧
        "#define BYTEWEAVE_VERSION_STRING \"1.2.3\"" ∈ out) := by
  obtain ⟨hmb, -, -⟩ := mainRun_ok_inv h
  obtain ⟨-, b, s, r, hin, hcase⟩ := mainBody_ok_inv hmb
  refine ⟨b, s, r, hin, ?_, ?_, ?_⟩
  · intro hcond
    have hnv : needs_version_flag fs a b = false :=
      (needs_version_flag_false_iff fs a b).mpr hcond
    rcases hcase with ⟨hnv', -⟩ | ⟨-, rfl⟩
    · rw [hnv] at hnv'
      exact absurd hnv' (by simp)
    · rfl
  · intro hcond
    rcases hcase with ⟨-, vlines, hvt, rfl⟩ | ⟨hnv', -⟩
    · exact ⟨vlines, hvt, rfl⟩
    · exact absurd ((needs_version_flag_false_iff fs a b).mp hnv') hcond
  · intro hgen hver hsb
    have hcond : ¬ ((∃ g, a.generated = some g ∧
          fs.pathExists (g ++ "/" ++ VERSION_HEADER) = true) ∨
        hasSubstr "BYTEWEAVE_VERSION_MAJOR".data (joinLines b).data = true) := by
      rintro (⟨g, hg, -⟩ | hsb')
      · rw [hgen] at hg
        cases hg
      · rw [hsb] at hsb'
        exact absurd hsb' (by simp)
    rcases hcase with ⟨-, vlines, hvt, rfl⟩ | ⟨hnv', -⟩
    · rw [hver] at hvt
      have hveq : vlines =
          ["#define BYTEWEAVE_VERSION_MAJOR 1", "#define BYTEWEAVE_VERSION_MINOR 2",
           "#define BYTEWEAVE_VERSION_PATCH 3",
           "#define BYTEWEAVE_VERSION_STRING \"1.2.3\"", ""] := by
        have h0 : version_text "1.2.3" = .ok
            ["#define BYTEWEAVE_VERSION_MAJOR 1", "#define BYTEWEAVE_VERSION_MINOR 2",
             "#define BYTEWEAVE_VERSION_PATCH 3",
             "#define BYTEWEAVE_VERSION_STRING \"1.2.3\"", ""] := rfl
        have := hvt.symm.trans h0
        simpa using this
      subst hveq
      refine ⟨?_, ?_, ?_, ?_⟩ <;>
        refine mem_rstripLines ?_ (by decide) (by decide) <;>
        · rw [List.mem_append, List.mem_append]
          left
          right
          simp
    · exact absurd ((needs_version_flag_false_iff fs a b).mp hnv') hcond

/-- C5 witness: the synthesized block at version "1.2.3" with no
generated directory, on a concrete evaluated run. -/
theorem claim_C5_witness :
    "#define BYTEWEAVE_VERSION_MAJOR 1" ∈
      (["#pragma once", "#ifndef BYTEWEAVE_AMALGAMATED",
        "#  define BYTEWEAVE_AMALGAMATED 1", "#endif", "", "#ifndef BW_API",
        "#  define BW_API", "#endif", "", "// synthesized: byteweave/version.hpp",
        "#define BYTEWEAVE_VERSION_MAJOR 1", "#define BYTEWEAVE_VERSION_MINOR 2",
        "#define BYTEWEAVE_VERSION_PATCH 3",
        "#define BYTEWEAVE_VERSION_STRING \"1.2.3\"",
        "", "int a;", "// begin: byteweave/core.hpp", "int b;",
        "// end: byteweave/core.hpp", "#include <vector>"] : List String) ∧
    "#define BYTEWEAVE_VERSION_STRING \"1.2.3\"" ∈
      (["#pragma once", "#ifndef BYTEWEAVE_AMALGAMATED",
        "#  define BYTEWEAVE_AMALGAMATED 1", "#endif", "", "#ifndef BW_API",
        "#  define BW_API", "#endif", "", "// synthesized: byteweave/version.hpp",
        "#define BYTEWEAVE_VERSION_MAJOR 1", "#define BYTEWEAVE_VERSION_MINOR 2",
        "#define BYTEWEAVE_VERSION_PATCH 3",
        "#define BYTEWEAVE_VERSION_STRING \"1.2.3\"",
        "", "int a;", "// begin: byteweave/core.hpp", "int b;",
        "// end: byteweave/core.hpp", "#include <vector>"] : List String) := by
  obtain ⟨b, s, r, hin, -, -, hpos⟩ :=
    @claim_C5_amended ⟨[("R/include/byteweave/bw.hpp",
        "#pragma once\nint a;\n#include \"byteweave/core.hpp\"\n#include <vector>\n"),
        ("R/include/byteweave/core.hpp", "#pragma once\nint b;\n")], []⟩
      ⟨"R/include/byteweave/bw.hpp", "dist/out.hpp", "1.2.3", none, "R"⟩
      "dist/out.hpp" _ rfl
  have hb2 := hin.symm.trans
    (show inline_file _ "R/include/byteweave/bw.hpp" [] =
      .ok (["int a;", "// begin: byteweave/core.hpp", "int b;",
        "// end: byteweave/core.hpp", "#include <vector>"],
        ["R/include/byteweave/core.hpp", "R/include/byteweave/bw.hpp"],
        ["R/include/byteweave/bw.hpp", "R/include/byteweave/core.hpp"]) from rfl)
  simp only [Except.ok.injEq, Prod.mk.injEq] at hb2
  have hres := hpos rfl rfl (by rw [hb2.1]; decide)
  exact ⟨hres.1, hres.2.2.2⟩

/-- C6: the Local Path Resolver on the version-header fragment
returns the concrete generated file when a generated directory is
supplied and the file exists, a configuration error when supplied but
missing, and the synthesized placeholder when not supplied; every
other non-export fragment resolves under the include root and fails
with a resolution error exactly when absent. -/
theorem claim_C6 (ctx : Ctx) (frag : String) :
    (frag = VERSION_HEADER →
      (∀ g, ctx.generated = some g →
        (ctx.fs.pathExists (g ++ "/" ++ frag) = true →
          resolve_local ctx frag = .ok (some (g ++ "/" ++ frag))) ∧
        (ctx.fs.pathExists (g ++ "/" ++ frag) = false →
          resolve_local ctx frag =
            .error ("Expected generated version header missing: " ++ (g ++ "/" ++ frag)))) ∧
      (ctx.generated = none → resolve_local ctx frag = .ok (some SYNTH_PATH))) ∧
    (frag ≠ EXPORT_HEADER → frag ≠ VERSION_HEADER →
      (ctx.fs.pathExists (ctx.repo_root ++ "/include/" ++ frag) = true →
        resolve_local ctx frag = .ok (some (ctx.repo_root ++ "/include/" ++ frag))) ∧
      (ctx.fs.pathExists (ctx.repo_root ++ "/include/" ++ frag) = false →
        resolve_local ctx frag =
          .error ("Unable to resolve local include '" ++ frag ++ "'"))) := by
  constructor
  · intro hv
    subst hv
    constructor
    · intro g hg
      constructor
      · intro hex
        rw [resolve_local, if_neg (by decide), if_pos rfl, hg]
        dsimp only []
        rw [if_pos hex]
      · intro hex
        rw [resolve_local, if_neg (by decide), if_pos rfl, hg]
        dsimp only []
        rw [if_neg (by simp [hex])]
    · intro hg
      rw [resolve_local, if_neg (by decide), if_pos rfl, hg]
  · intro hexp hver
    constructor
    · intro hex
      rw [resolve_local, if_neg hexp, if_neg hver, if_pos hex]
    · intro hex
      rw [resolve_local, if_neg hexp, if_neg hver, if_neg (by simp [hex])]

/-- C6 witness: all three version-header outcomes and both plain
outcomes at concrete inputs. -/
theorem claim_C6_witness :
    resolve_local ⟨⟨[("G/byteweave/version.hpp", "v")], []⟩, "R", some "G"⟩
        VERSION_HEADER = .ok (some ("G" ++ "/" ++ VERSION_HEADER)) ∧
    resolve_local ⟨⟨[], []⟩, "R", some "G"⟩ VERSION_HEADER =
      .error ("Expected generated version header missing: " ++ ("G" ++ "/" ++ VERSION_HEADER)) ∧
    resolve_local ⟨⟨[], []⟩, "R", none⟩ VERSION_HEADER = .ok (some SYNTH_PATH) ∧
    resolve_local ⟨⟨[("R/include/byteweave/a.hpp", "x")], []⟩, "R", none⟩
        "byteweave/a.hpp" = .ok (some ("R" ++ "/include/" ++ "byteweave/a.hpp")) ∧
    resolve_local ⟨⟨[], []⟩, "R", none⟩ "byteweave/a.hpp" =
      .error ("Unable to resolve local include '" ++ "byteweave/a.hpp" ++ "'") := by
  refine ⟨?_, ?_, ?_, ?_, ?_⟩
  · exact ((claim_C6 _ VERSION_HEADER).1 rfl).1 "G" rfl |>.1 (by decide)
  · exact ((claim_C6 _ VERSION_HEADER).1 rfl).1 "G" rfl |>.2 (by decide)
  · exact ((claim_C6 _ VERSION_HEADER).1 rfl).2 rfl
  · exact ((claim_C6 _ "byteweave/a.hpp").2 (by decide) (by decide)).1 (by decide)
  · exact ((claim_C6 _ "byteweave/a.hpp").2 (by decide) (by decide)).2 (by decide)

/-- C7: every failure surfaces as an error before any write — a
missing entry file and a missing generated directory produce their
configuration errors directly, any error raised during traversal or
version validation propagates out of the orchestrator unchanged, and
the top-level handler maps every error to exit code 2 with no file
written, while success writes exactly the assembled document with
exit code 0. -/
theorem claim_C7 (fs : Fs) (a : Args) :
    (fs.pathExists a.entry = false →
      mainRun fs a = .error ("--entry not found: " ++ a.entry)) ∧
    (∀ g, a.generated = some g → fs.pathExists a.entry = true →
      fs.pathExists g = false →
      mainRun fs a = .error ("--generated directory not found: " ++ g)) ∧
    (∀ e, fs.pathExists a.entry = true →
      (∀ g, a.generated = some g → fs.pathExists g = true) →
      inline_file ⟨fs, a.repo_root, a.generated⟩ a.entry [] = .error e →
      mainRun fs a = .error e) ∧
    (∀ e, mainRun fs a = .error e → topLevel fs a = (2, none)) ∧
    (∀ pth out, mainRun fs a = .ok (pth, out) → topLevel fs a = (0, some (pth, out))) := by
  refine ⟨?_, ?_, ?_, ?_, ?_⟩
  · intro he
    rw [mainRun, show (!fs.pathExists a.entry) = true by simp [he], if_pos rfl]
  · intro g hg he hx
    rw [mainRun, show (!fs.pathExists a.entry) = false by simp [he],
      if_neg (by simp), hg]
    dsimp only []
    rw [show (!fs.pathExists g) = true by simp [hx], if_pos rfl]
  · intro e he hgen hin
    have hbody : mainBody fs a = .error e := by
      rw [mainBody, hin]
    rw [mainRun, show (!fs.pathExists a.entry) = false by simp [he],
      if_neg (by simp)]
    cases hg : a.generated with
    | some g =>
      dsimp only []
      rw [show (!fs.pathExists g) = false by simp [hgen g hg], if_neg (by simp)]
      exact hbody
    | none => exact hbody
  · intro e he
    rw [topLevel, he]
  · intro pth out hok
    rw [topLevel, hok]

/-- C7 witness: a nonexistent entry path yields the configuration
error, exit code 2, and no write. -/
theorem claim_C7_witness :
    mainRun ⟨[], []⟩ ⟨"missing.hpp", "o", "1.2.3", none, "R"⟩ =
      .error ("--entry not found: " ++ "missing.hpp") ∧
    topLevel ⟨[], []⟩ ⟨"missing.hpp", "o", "1.2.3", none, "R"⟩ = (2, none) := by
  have h1 := (claim_C7 ⟨[], []⟩ ⟨"missing.hpp", "o", "1.2.3", none, "R"⟩).1 (by decide)
  refine ⟨h1, ?_⟩
  exact (claim_C7 ⟨[], []⟩ ⟨"missing.hpp", "o", "1.2.3", none, "R"⟩).2.2.2.1 _ h1

/-- C8: the export/shim header never reaches the output: the resolver
classifies it as Skipped (`ok none`), the inliner drops every include
line naming it, and no successful traversal that starts anywhere
other than the export file itself ever reads the export header's
on-disk path. -/
theorem claim_C8 (ctx : Ctx) (entry : String) (o s' r : List String)
    (h : inline_file ctx entry [] = .ok (o, s', r))
    (hne : entry ≠ export_path ctx.repo_root) :
    resolve_local ctx EXPORT_HEADER = .ok none ∧
    (∀ (rcall : String → List String → Except String IRes) (line : String)
        (rest seen : List String) (d : Char),
      parse_include line = some (d, EXPORT_HEADER) → isGuardL line = false →
      processLines ctx rcall (line :: rest) seen = processLines ctx rcall rest seen) ∧
    export_path ctx.repo_root ∉ r := by
  refine ⟨?_, ?_, ?_⟩
  · rw [resolve_local, if_pos rfl]
  · intro rcall line rest seen d hp hg
    rw [processLines, if_neg (by simp [hg]), hp]
    dsimp only []
    rw [show (!is_local_byteweave EXPORT_HEADER) = false by decide]
    rw [if_neg (by simp), if_pos rfl]
  · intro hmem
    rw [inline_file] at h
    rcases inlineF_reads ctx _ _ _ _ _ _ h _ hmem with heq | hok
    · exact hne heq.symm
    · exact okTarget_ne_export hok rfl

/-- C8 witness: a file including the export header twice contributes
none of its content; the traversal reads only the entry. -/
theorem claim_C8_witness :
    resolve_local (Ctx.mk ⟨[("E", "#include \"byteweave/export.hpp\"\nint x;\n"),
        ("R/include/byteweave/export.hpp", "SECRET")], []⟩ "R" none) EXPORT_HEADER =
      .ok none ∧
    export_path "R" ∉ (["E"] : List String) :=
  have h := claim_C8 (Ctx.mk ⟨[("E", "#include \"byteweave/export.hpp\"\nint x;\n"),
      ("R/include/byteweave/export.hpp", "SECRET")], []⟩ "R" none) "E"
    ["int x;"] ["E"] ["E"] rfl (by decide)
  ⟨h.1, h.2.2⟩

/-- C9: the traversal terminates — its result stabilizes as soon as
the fuel exceeds the number of unvisited files, because the visited
set grows by exactly the freshly read files on every successful call
and an already-visited file is finished immediately with empty output
and an unchanged visited set (a file re-encountered mid-processing is
in the threaded set and is treated exactly like a finished one). -/
theorem claim_C9 (ctx : Ctx) :
    (∀ (p : String) (seen : List String) (f₁ f₂ : Nat),
      freshCount ctx.fs seen < f₁ → freshCount ctx.fs seen < f₂ →
      inlineF ctx f₁ p seen = inlineF ctx f₂ p seen) ∧
    (∀ (p : String) (seen o s' r : List String),
      inline_file ctx p seen = .ok (o, s', r) →
      (∀ q ∈ seen, q ∈ s') ∧ (∀ q, q ∈ s' ↔ q ∈ r ∨ q ∈ seen)) ∧
    (∀ (p : String) (seen : List String) (f : Nat), p ∈ seen →
      inlineF ctx (f + 1) p seen = .ok ([], seen, [])) := by
  refine ⟨?_, ?_, ?_⟩
  · intro p seen f₁ f₂ h1 h2
    exact inlineF_stable ctx (freshCount ctx.fs seen) p seen f₁ f₂ le_rfl h1 h2
  · intro p seen o s' r h
    rw [inline_file] at h
    obtain ⟨m, fr, nd⟩ := inlineF_seenInv ctx _ _ _ _ _ _ h
    exact ⟨fun q hq => (m q).mpr (Or.inr hq), m⟩
  · intro p seen f hp
    exact inlineF_visited hp

/-- C9 witness: stabilization, growth and the visited no-op on a
concrete one-file graph. -/
theorem claim_C9_witness :
    inlineF (Ctx.mk ⟨[("E", "int x;\n")], []⟩ "R" none) 2 "E" [] =
      inlineF (Ctx.mk ⟨[("E", "int x;\n")], []⟩ "R" none) 5 "E" [] ∧
    ("E" ∈ (["E"] : List String)) ∧
    inlineF (Ctx.mk ⟨[("E", "int x;\n")], []⟩ "R" none) 1 "E" ["E"] =
      .ok ([], ["E"], []) := by
  have h := claim_C9 (Ctx.mk ⟨[("E", "int x;\n")], []⟩ "R" none)
  refine ⟨h.1 "E" [] 2 5 (by decide) (by decide), by decide, ?_⟩
  exact h.2.2 "E" ["E"] 0 (by decide)

/-- C10: classification of an include depends only on the fragment,
never on the delimiter: the regex accepts both delimiters around the
same fragment and returns the same stripped fragment, two include
lines carrying the same library-namespaced fragment are inlined
identically, and a line whose fragment lacks the reserved prefix
passes through verbatim whichever delimiter it uses. -/
theorem claim_C10 :
    (∀ frag : String, frag.data ≠ [] → (∀ c ∈ frag.data, ¬(c = '"' ∨ c = '>')) →
      parse_include ("#include " ++ (String.mk ['<'] ++ (frag ++ String.mk ['>']))) =
        some ('<', String.mk (pyStripL frag.data)) ∧
      parse_include ("#include " ++ (String.mk ['"'] ++ (frag ++ String.mk ['"']))) =
        some ('"', String.mk (pyStripL frag.data))) ∧
    (∀ (ctx : Ctx) (rcall : String → List String → Except String IRes)
        (line₁ line₂ : String) (d₁ d₂ : Char) (inc : String) (rest seen : List String),
      parse_include line₁ = some (d₁, inc) → parse_include line₂ = some (d₂, inc) →
      is_local_byteweave inc = true →
      processLines ctx rcall (line₁ :: rest) seen =
        processLines ctx rcall (line₂ :: rest) seen) ∧
    (∀ (ctx : Ctx) (rcall : String → List String → Except String IRes)
        (line : String) (d : Char) (inc : String) (rest seen : List String),
      parse_include line = some (d, inc) → is_local_byteweave inc = false →
      processLines ctx rcall (line :: rest) seen =
        match processLines ctx rcall rest seen with
        | .error e => .error e
        | .ok (o, s, r) => .ok (line :: o, s, r)) := by
  refine ⟨?_, ?_, ?_⟩
  · intro frag h1 h2
    exact ⟨parse_include_delim frag '<' (Or.inl rfl) h1 h2 '>' (Or.inr rfl),
      parse_include_delim frag '"' (Or.inr rfl) h1 h2 '"' (Or.inl rfl)⟩
  · intro ctx rcall line₁ line₂ d₁ d₂ inc rest seen hp₁ hp₂ hloc
    exact parse_include_only_frag hp₁ hp₂ hloc rest seen
  · intro ctx rcall line d inc rest seen hp hloc
    exact parse_include_pass hp hloc rest seen

/-- C10 witness: angle and quote forms of the same fragment parse to
the same fragment and inline identically on a concrete graph. -/
theorem claim_C10_witness :
    parse_include ("#include " ++ (String.mk ['<'] ++
        ("byteweave/a.hpp" ++ String.mk ['>']))) = some ('<', "byteweave/a.hpp") ∧
    parse_include ("#include " ++ (String.mk ['"'] ++
        ("byteweave/a.hpp" ++ String.mk ['"']))) = some ('"', "byteweave/a.hpp") ∧
    processLines (Ctx.mk ⟨[("R/include/byteweave/a.hpp", "int a;\n")], []⟩ "R" none)
        (inlineF (Ctx.mk ⟨[("R/include/byteweave/a.hpp", "int a;\n")], []⟩ "R" none) 1)
        ["#include <byteweave/a.hpp>"] [] =
      processLines (Ctx.mk ⟨[("R/include/byteweave/a.hpp", "int a;\n")], []⟩ "R" none)
        (inlineF (Ctx.mk ⟨[("R/include/byteweave/a.hpp", "int a;\n")], []⟩ "R" none) 1)
        ["#include \"byteweave/a.hpp\""] [] := by
  have h1 := (claim_C10.1 "byteweave/a.hpp" (by decide) (by decide)).1
  have h2 := (claim_C10.1 "byteweave/a.hpp" (by decide) (by decide)).2
  refine ⟨h1.trans (by decide), h2.trans (by decide), ?_⟩
  exact claim_C10.2.1 _ _ "#include <byteweave/a.hpp>" "#include \"byteweave/a.hpp\""
    '<' '"' "byteweave/a.hpp" [] [] rfl rfl (by decide)

end Amalgamate
